import Mathlib

/-!
Verification development for the 4TML chat front-end
(src/script.js and src/unnamed/part_000; the two files are two revisions of
the same browser script, part_000 being the richer one: it adds the file
extension check, markdown-formatted AI messages and a 3-second status-clear
timer after a download; everything else that matters here is identical).

The script's asynchronous job-lifecycle controller is shallowly embedded as a
deterministic discrete-event machine:

* timers (`setInterval` every 2000 ms at src/unnamed/part_000:166-189,
  `setTimeout` 5000 ms at lines 191-214, the 1000/3000 ms download timers at
  lines 109-114) and resumptions of `await fetch(...)` calls are
  defunctionalized into `TaskBody` values held in a queue sorted by due time;
* the backend is an oracle (`Backend`) giving, per issued request, a latency
  and either a parsed reply or `none` (the corresponding `fetch`/`json()`
  rejecting, i.e. a transport error);
* user gestures (send, file pick, new-chat, download click) arrive as a
  time-stamped input list;
* every externally visible effect (fetch issued, status line written, chat
  message appended, alert dialog, navigation, uncaught rejection) is logged
  in a trace, newest first.

The event loop is single threaded: each step executes the earliest pending
task or input, exactly like the browser's timer/microtask scheduling at the
granularity the claims are stated at (ties are broken in favour of tasks;
the concrete schedules used below avoid ties).
-/

namespace FourTML

/-- Backend job status carried by the `status` field of
`GET /api/check_status` replies (`statusData.status` in the script).
`unknown` stands for any value other than the three recognised strings,
including an absent field. -/
inductive Status where
  | unknown
  | processing
  | completed
  | failed
deriving DecidableEq, Repr

/-- The text shown in `processingStatusArea`, defunctionalized.  Payloads keep
the data interpolated into the string: `doneOk`/`doneFail` carry the backend
timestamp (`statusData.timestamp`), `working` carries the wall-clock time
(`new Date()`).  `empty` is the cleared text. -/
inductive StatusText where
  | empty
  | preparing
  | doneOk (ts : Nat)
  | doneFail (ts : Nat)
  | working (t : Nat)
  | ready
  | connError
  | downloading
  | downloaded
deriving DecidableEq, Repr

/-- A chat-window entry.  `placeholder`/`typing` carry the id of the job that
created them so that the finalize callback can remove exactly its own
elements (`initialResponseElement`, `typingIndicator`). -/
inductive ChatMsg where
  | welcome
  | user (txt : List Char)
  | placeholder (j : Nat)
  | typing (j : Nat)
  | ai (txt : List Char)
  | aiError
deriving DecidableEq, Repr

/-- The blocking `alert(...)` dialogs of the script, one constructor per
distinct message. -/
inductive AlertKind where
  | badExt
  | tooBig
  | dlWaitProcessing
  | dlFailed
  | dlWaitNoFile
  | dlConnErr
deriving DecidableEq, Repr

/-- The three JSON endpoints of the backend contract.  The navigation to
`/api/download_output` is logged as a separate `Event.navigate`. -/
inductive Endpoint where
  | checkStatus
  | getOutput
  | processPrompt
deriving DecidableEq, Repr

/-- Which call site produced an effect (used only in the trace, to state the
claims; carries the job id where one exists). -/
inductive Src where
  | poll (j : Nat)
  | finalize (j : Nat)
  | submitStart (j : Nat)
  | dl
  | reset
deriving DecidableEq, Repr

/-- Externally visible effects, newest first in `Config.trace`. -/
inductive Event where
  | fetch (ep : Endpoint) (src : Src) (t : Nat)
  | setStatus (txt : StatusText) (src : Src) (t : Nat)
  | chatAdd (m : ChatMsg) (t : Nat)
  | chatClear (t : Nat)
  | alert (k : AlertKind) (t : Nat)
  | navigate (t : Nat)
  | finalizeBegan (j : Nat) (t : Nat)
  | uncaught (t : Nat)
deriving DecidableEq, Repr

/-- Time stamp of an event. -/
def etime : Event → Nat
  | .fetch _ _ t => t
  | .setStatus _ _ t => t
  | .chatAdd _ t => t
  | .chatClear t => t
  | .alert _ t => t
  | .navigate t => t
  | .finalizeBegan _ t => t
  | .uncaught t => t

/-- Defunctionalized pending work: armed timers and suspended `await`
continuations.  `r`-carrying constructors are the resumption of an issued
fetch, holding the parsed reply (`none` = the promise rejected). -/
inductive TaskBody where
  | pollTick (j : Nat)
  | pollResume (j : Nat) (r : Option (Status × Nat))
  | finalizeFire (j : Nat)
  | submitResume (j : Nat) (r : Option (List Char))
  | finalResume (j : Nat) (r : Option (Status × Nat))
  | dlStatusResume (r : Option (Status × Nat))
  | dlOutputResume (r : Option Bool)
  | dlShowDone
  | dlClearText
deriving DecidableEq, Repr

/-- A queued task: body plus absolute due time. -/
structure Task where
  due : Nat
  body : TaskBody
deriving DecidableEq, Repr

/-- Per-invocation state of `startProcessingFlow`: the closure variables
`processingDone` (line 164) and the aliveness of `checkStatusInterval`
(cleared by `clearInterval`). -/
structure JobRec where
  id : Nat
  startTime : Nat
  processingDone : Bool
  intervalCleared : Bool
deriving DecidableEq, Repr

/-- The DOM state the claims talk about. -/
structure UI where
  statusText : StatusText
  downloadVisible : Bool
  chat : List ChatMsg
  welcomeVisible : Bool
deriving DecidableEq, Repr

/-- Reply oracle entry for one `GET /api/check_status`:
latency in ms and either `(status, timestamp)` or a transport error. -/
structure StatusReply where
  latency : Nat
  result : Option (Status × Nat)

/-- Reply oracle entry for one `POST /api/process_prompt`: `some txt` is a
2xx reply with `ai_response_text = txt`; `none` is a network failure or a
non-2xx response (the script turns both into the same catch). -/
structure PromptReply where
  latency : Nat
  result : Option (List Char)

/-- Reply oracle entry for one `GET /api/get_output` (`success` field). -/
structure OutputReply where
  latency : Nat
  result : Option Bool

/-- The backend as an oracle: the n-th issued request of each endpoint gets
the n-th reply. -/
structure Backend where
  statusAt : Nat → StatusReply
  promptAt : Nat → PromptReply
  outputAt : Nat → OutputReply

/-- External user gestures. -/
inductive UserAction where
  | sendMessage (txt : List Char)
  | selectFile (name : List Char) (size : Nat)
  | clickNewChat
  | clickDownload
deriving DecidableEq, Repr

/-- Whole-machine state. `ghostReconciled` is a specification-side ghost
variable: the status observed by the most recent post-finalize
reconciliation, cleared when a submission starts and on reset (the claim
about download gating is stated against it). -/
structure Config where
  now : Nat
  nextJob : Nat
  jobs : List JobRec
  tasks : List Task
  inputs : List (Nat × UserAction)
  scCount : Nat
  ppCount : Nat
  goCount : Nat
  ui : UI
  ghostReconciled : Option Status
  trace : List Event
deriving DecidableEq, Repr

/-- Insert a task keeping the queue sorted by due time; an equal-due task
goes after existing ones (FIFO for ties, like browser timers). -/
def qInsert (t : Task) : List Task → List Task
  | [] => [t]
  | u :: us => if t.due < u.due then t :: u :: us else u :: qInsert t us

/-- Append an event to the trace (newest first). -/
def logEvent (c : Config) (e : Event) : Config :=
  { c with trace := e :: c.trace }

/-- Arm a timer / record a pending resumption. -/
def schedule (c : Config) (due : Nat) (b : TaskBody) : Config :=
  { c with tasks := qInsert { due := due, body := b } c.tasks }

/-- Write `processingStatusArea` and log it. -/
def setStatusText (c : Config) (txt : StatusText) (s : Src) : Config :=
  { c with ui := { c.ui with statusText := txt },
           trace := Event.setStatus txt s c.now :: c.trace }

/-- `createMessageElement` / `createFormattedMessage`: append to the chat
window and log it. -/
def addChat (c : Config) (m : ChatMsg) : Config :=
  { c with ui := { c.ui with chat := c.ui.chat ++ [m] },
           trace := Event.chatAdd m c.now :: c.trace }

/-- Issue a `GET /api/check_status` (consumes the next status oracle entry). -/
def issueStatus (B : Backend) (c : Config) (s : Src) : Config × StatusReply :=
  ({ c with scCount := c.scCount + 1,
            trace := Event.fetch .checkStatus s c.now :: c.trace },
   B.statusAt c.scCount)

/-- Issue the `POST /api/process_prompt`. -/
def issuePrompt (B : Backend) (c : Config) (s : Src) : Config × PromptReply :=
  ({ c with ppCount := c.ppCount + 1,
            trace := Event.fetch .processPrompt s c.now :: c.trace },
   B.promptAt c.ppCount)

/-- Issue a `GET /api/get_output`. -/
def issueOutput (B : Backend) (c : Config) (s : Src) : Config × OutputReply :=
  ({ c with goCount := c.goCount + 1,
            trace := Event.fetch .getOutput s c.now :: c.trace },
   B.outputAt c.goCount)

/-- `c.jobs.find?` by id. -/
def findJob (c : Config) (j : Nat) : Option JobRec :=
  c.jobs.find? (fun jr => jr.id = j)

/-- `clearInterval(checkStatusInterval)` reached from inside the poll tick
(lines 167-170): mark the interval of job `j` cleared. -/
def markCleared (c : Config) (j : Nat) : Config :=
  { c with jobs := c.jobs.map (fun jr =>
      if jr.id = j then { jr with intervalCleared := true } else jr) }

/-- `processingDone = true; clearInterval(checkStatusInterval)` executed
synchronously at the top of the finalize callback (lines 192-193). -/
def markDoneCleared (c : Config) (j : Nat) : Config :=
  { c with jobs := c.jobs.map (fun jr =>
      if jr.id = j then { jr with processingDone := true, intervalCleared := true }
      else jr) }

/-- Remove a chat element if still attached (the
`if (x.parentElement) chatWindow.removeChild(x)` pattern, lines 195-200). -/
def removeChat (c : Config) (m : ChatMsg) : Config :=
  { c with ui := { c.ui with chat := c.ui.chat.filter (fun x => x ≠ m) } }

/-- The status-to-text mapping of the 2-second poll tick, lines 176-184:
`completed` and `failed` interpolate the backend timestamp, `processing`
interpolates the current time, anything else is the ready text. -/
def pollStatusText (s : Status) (ts : Nat) (now : Nat) : StatusText :=
  match s with
  | .completed => .doneOk ts
  | .failed => .doneFail ts
  | .processing => .working now
  | .unknown => .ready

/-- The status-to-text mapping of the post-finalize reconciliation, lines
207-212: only `completed` and `failed` write the status line; any other
status leaves it untouched (`none`). -/
def finalStatusText (s : Status) (ts : Nat) : Option StatusText :=
  match s with
  | .completed => some (.doneOk ts)
  | .failed => some (.doneFail ts)
  | .processing => none
  | .unknown => none

/-- Execute one due task.  `c` already has `now` set to the task's due time
and the task removed from the queue. -/
def runTask (B : Backend) (c : Config) : TaskBody → Config
  | .pollTick j =>
    -- the setInterval callback, lines 166-189
    match findJob c j with
    | none => c
    | some jr =>
      if jr.intervalCleared then
        -- a pending tick of an interval already cancelled by clearInterval:
        -- it never runs
        c
      else if jr.processingDone then
        -- lines 167-170: clearInterval and return
        markCleared c j
      else
        -- issue the status fetch, suspend until the reply, and (setInterval
        -- semantics) keep ticking every 2000 ms
        let p := issueStatus B c (.poll j)
        let c1 := schedule p.1 (c.now + p.2.latency) (.pollResume j p.2.result)
        schedule c1 (c.now + 2000) (.pollTick j)
  | .pollResume j r =>
    -- resumption after `await fetch / await json` in the tick, lines 174-187;
    -- the catch turns a rejection into the connectivity-error status text
    match r with
    | some (s, ts) => setStatusText c (pollStatusText s ts c.now) (.poll j)
    | none => setStatusText c .connError (.poll j)
  | .finalizeFire j =>
    -- the 5-second setTimeout callback, lines 191-202, up to its first await
    let c0 := logEvent c (.finalizeBegan j c.now)
    let c1 := markDoneCleared c0 j
    let c2 := removeChat (removeChat c1 (.placeholder j)) (.typing j)
    let p := issuePrompt B c2 (.finalize j)
    schedule p.1 (c.now + p.2.latency) (.submitResume j p.2.result)
  | .submitResume j r =>
    -- `simulateAIResponse` after its fetch resolves (lines 217-243), then the
    -- final status fetch of the finalize callback (line 204)
    let c1 := match r with
      | some txt => addChat c (.ai txt)
      | none => addChat c .aiError
    let p := issueStatus B c1 (.finalize j)
    schedule p.1 (c.now + p.2.latency) (.finalResume j p.2.result)
  | .finalResume j r =>
    -- lines 204-212.  This await is NOT inside any try/catch: a rejection
    -- here escapes the async callback as an unhandled promise rejection.
    match r with
    | none => logEvent c (.uncaught c.now)
    | some (s, ts) =>
      let c1 := { c with ghostReconciled := some s }
      match finalStatusText s ts with
      | some txt =>
        let c2 := if s = .completed then
            { c1 with ui := { c1.ui with downloadVisible := true } }
          else c1
        setStatusText c2 txt (.finalize j)
      | none => c1
  | .dlStatusResume r =>
    -- download click handler after its first await, lines 85-104
    match r with
    | none => logEvent c (.alert .dlConnErr c.now)
    | some (s, _) =>
      if s = .processing then logEvent c (.alert .dlWaitProcessing c.now)
      else if s = .failed then logEvent c (.alert .dlFailed c.now)
      else
        let p := issueOutput B c .dl
        schedule p.1 (c.now + p.2.latency) (.dlOutputResume p.2.result)
  | .dlOutputResume r =>
    -- lines 98-114
    match r with
    | none => logEvent c (.alert .dlConnErr c.now)
    | some false => logEvent c (.alert .dlWaitNoFile c.now)
    | some true =>
      let c1 := setStatusText c .downloading .dl
      let c2 := logEvent c1 (.navigate c.now)
      schedule c2 (c.now + 1000) .dlShowDone
  | .dlShowDone =>
    -- line 109-110, then arm the 3-second clear (part_000 only)
    schedule (setStatusText c .downloaded .dl) (c.now + 3000) .dlClearText
  | .dlClearText =>
    -- lines 111-113
    setStatusText c .empty .dl

/-- `startProcessingFlow` up to arming its two timers (lines 157-165 and the
two `setInterval`/`setTimeout` registrations).  The chat placeholder and
typing indicator are tagged with the fresh job id. -/
def startProcessingFlow (c : Config) : Config :=
  let j := c.nextJob
  let c1 := { c with ui := { c.ui with downloadVisible := false },
                     ghostReconciled := none }
  let c2 := setStatusText c1 .preparing (.submitStart j)
  let c3 := addChat (addChat c2 (.placeholder j)) (.typing j)
  let c4 := { c3 with
    jobs := c3.jobs ++ [{ id := j, startTime := c.now,
                          processingDone := false, intervalCleared := false }],
    nextJob := j + 1 }
  schedule (schedule c4 (c.now + 2000) (.pollTick j)) (c.now + 5000) (.finalizeFire j)

/-- JS whitespace as far as the claims need it. -/
def isWs (ch : Char) : Bool :=
  ch = ' ' || ch = '\t' || ch = '\n' || ch = '\r'

/-- `String.prototype.trim`. -/
def trimL (l : List Char) : List Char :=
  ((l.dropWhile isWs).reverse.dropWhile isWs).reverse

/-- `sendMessage`, lines 245-258: a blank (after trim) input returns before
touching anything; otherwise hide the welcome message, append the user
message and start the flow. -/
def sendMessage (c : Config) (txt : List Char) : Config :=
  if trimL txt = [] then c
  else
    let c1 := { c with ui := { c.ui with welcomeVisible := false } }
    startProcessingFlow (addChat c1 (.user txt))

/-- The last-dot suffix of a name: `name.substring(name.lastIndexOf('.'))`.
Returns the suffix starting at the rightmost dot, or the whole name when
there is no dot (JS `substring(-1)` clamps to 0). -/
def lastDotSuffix : List Char → Option (List Char)
  | [] => none
  | ch :: cs =>
    match lastDotSuffix cs with
    | some s => some s
    | none => if ch = '.' then some (ch :: cs) else none

/-- `file.name.substring(file.name.lastIndexOf('.'))`. -/
def extOf (name : List Char) : List Char :=
  match lastDotSuffix name with
  | some s => s
  | none => name

/-- `const allowedExtensions = ['.txt', '.pdf', '.docx']` (part_000:126). -/
def allowedExtensions : List (List Char) :=
  [".txt".toList, ".pdf".toList, ".docx".toList]

/-- Outcome of the pre-submission file validation. -/
inductive FileDecision where
  | rejectExt
  | rejectSize
  | accept
deriving DecidableEq, Repr

/-- The validation of `handleFileSelection` in src/unnamed/part_000, lines
122-139: the lower-cased last-dot suffix (`fileExtension`) must be an
allowed extension, then the size must be at most 5 * 1024 * 1024 bytes. -/
def fileDecision (name : List Char) (size : Nat) : FileDecision :=
  if (extOf name).map Char.toLower ∉ allowedExtensions then .rejectExt
  else if size > 5 * 1024 * 1024 then .rejectSize
  else .accept

/-- The validation of `handleFileSelection` in src/script.js, lines 129-136:
this earlier revision checks only the size and has no extension check at
all. -/
def fileDecisionV1 (_name : List Char) (size : Nat) : FileDecision :=
  if size > 5 * 1024 * 1024 then .rejectSize else .accept

/-- `handleFileSelection` of src/unnamed/part_000 (lines 122-155): reject by
alert before any network activity, or append the upload chat message and
start the flow.  The FileReader onload is modelled as immediate (its latency
plays no role in any claim). -/
def handleFileSelection (c : Config) (name : List Char) (size : Nat) : Config :=
  match fileDecision name size with
  | .rejectExt => logEvent c (.alert .badExt c.now)
  | .rejectSize => logEvent c (.alert .tooBig c.now)
  | .accept => startProcessingFlow (addChat c (.user name))

/-- `handleFileSelection` of src/script.js (lines 129-149): size check only. -/
def handleFileSelectionV1 (c : Config) (name : List Char) (size : Nat) : Config :=
  match fileDecisionV1 name size with
  | .rejectExt => logEvent c (.alert .badExt c.now)
  | .rejectSize => logEvent c (.alert .tooBig c.now)
  | .accept => startProcessingFlow (addChat c (.user name))

/-- The new-chat click handler, lines 73-81: clear the chat back to the
welcome message, hide the download button, clear the status text.  It
touches no timer and no pending task. -/
def newChatClick (c : Config) : Config :=
  let c1 := { c with ui := { statusText := c.ui.statusText,
                             downloadVisible := false,
                             chat := [.welcome], welcomeVisible := true },
                     ghostReconciled := none,
                     trace := Event.chatClear c.now :: c.trace }
  setStatusText c1 .empty .reset

/-- The download button click handler entry, lines 83-86: issue the status
fetch and suspend. -/
def downloadClick (B : Backend) (c : Config) : Config :=
  let p := issueStatus B c .dl
  schedule p.1 (c.now + p.2.latency) (.dlStatusResume p.2.result)

/-- Dispatch one user gesture.  `c` already has `now` set to the gesture
time and the gesture removed from the input list. -/
def applyAction (B : Backend) (c : Config) : UserAction → Config
  | .sendMessage txt => sendMessage c txt
  | .selectFile name size => handleFileSelection c name size
  | .clickNewChat => newChatClick c
  | .clickDownload => downloadClick B c

/-- What the scheduler does next. -/
inductive Next where
  | task (t : Task) (c : Config)
  | act (a : UserAction) (c : Config)
  | idle
deriving Repr

/-- Pick the earliest pending task or input (tasks win ties) and advance the
clock to it. -/
def nextOf (c : Config) : Next :=
  match c.tasks, c.inputs with
  | [], [] => .idle
  | tk :: ts, [] => .task tk { c with tasks := ts, now := tk.due }
  | [], (t, a) :: rest => .act a { c with inputs := rest, now := t }
  | tk :: ts, (t, a) :: rest =>
    if tk.due ≤ t then .task tk { c with tasks := ts, now := tk.due }
    else .act a { c with inputs := rest, now := t }

/-- One scheduler step. -/
def step (B : Backend) (c : Config) : Config :=
  match nextOf c with
  | .idle => c
  | .task tk c1 => runTask B c1 tk.body
  | .act a c1 => applyAction B c1 a

/-- Run `n` scheduler steps. -/
def runN (B : Backend) (c : Config) : Nat → Config
  | 0 => c
  | n + 1 => runN B (step B c) n

/-- Fresh machine with a script of user gestures. -/
def initConfig (ins : List (Nat × UserAction)) : Config :=
  { now := 0, nextJob := 0, jobs := [], tasks := [], inputs := ins,
    scCount := 0, ppCount := 0, goCount := 0,
    ui := { statusText := .empty, downloadVisible := false,
            chat := [.welcome], welcomeVisible := true },
    ghostReconciled := none, trace := [] }

/-! ### Specification-side predicates -/

/-- The job a pending task belongs to, if any. -/
def bodyJob : TaskBody → Option Nat
  | .pollTick j => some j
  | .pollResume j _ => some j
  | .finalizeFire j => some j
  | .submitResume j _ => some j
  | .finalResume j _ => some j
  | .dlStatusResume _ => none
  | .dlOutputResume _ => none
  | .dlShowDone => none
  | .dlClearText => none

/-- The job an effect source belongs to, if any. -/
def srcJob : Src → Option Nat
  | .poll j => some j
  | .finalize j => some j
  | .submitStart j => some j
  | .dl => none
  | .reset => none

/-- The job an event belongs to, if any. -/
def evJob : Event → Option Nat
  | .fetch _ s _ => srcJob s
  | .setStatus _ s _ => srcJob s
  | .finalizeBegan j _ => some j
  | _ => none

/-- Recognize the finalize-began marker of job `j`. -/
def isBeganJ (j : Nat) : Event → Bool
  | .finalizeBegan k _ => k == j
  | _ => false

/-- Recognize the `process_prompt` POST of job `j`. -/
def isPPJ (j : Nat) : Event → Bool
  | .fetch .processPrompt (.finalize k) _ => k == j
  | _ => false

/-- Recognize a poll-tick status fetch of job `j`. -/
def isPollFetchJ (j : Nat) : Event → Bool
  | .fetch .checkStatus (.poll k) _ => k == j
  | _ => false

/-- Recognize the pending finalize timer of job `j`. -/
def finFireB (j : Nat) : TaskBody → Bool
  | .finalizeFire k => k == j
  | _ => false

/-- Tasks belonging to some job (as opposed to the download-click chain). -/
def jobTaskB : TaskBody → Bool
  | .pollTick _ => true
  | .pollResume _ _ => true
  | .finalizeFire _ => true
  | .submitResume _ _ => true
  | .finalResume _ _ => true
  | _ => false

/-- The finalize chain of a job: its 5-second timer, the suspended
`process_prompt` POST and the suspended reconciliation fetch. -/
def finChainB : TaskBody → Bool
  | .finalizeFire _ => true
  | .submitResume _ _ => true
  | .finalResume _ _ => true
  | _ => false

/-- No task of any job (poll or finalize chain) is pending. -/
def jobQuiescent (c : Config) : Bool :=
  c.tasks.all (fun tk => !(jobTaskB tk.body))

/-- Gestures that start a processing flow (a valid submission). -/
def submissionAction : UserAction → Bool
  | .sendMessage txt => !(trimL txt).isEmpty
  | .selectFile name size => fileDecision name size == .accept
  | _ => false

/-- Whether the next scheduler step consumes a submission gesture. -/
def isSubmissionNext (c : Config) : Bool :=
  match nextOf c with
  | .act a _ => submissionAction a
  | _ => false

/-- The single-outstanding-job discipline the spec assumes (it declares
reentrant submissions out of scope): along the next `n` steps, every
submission happens while no task of an earlier job is pending. -/
def seqOKb (B : Backend) : Nat → Config → Bool
  | 0, _ => true
  | n + 1, c => (!(isSubmissionNext c) || jobQuiescent c) && seqOKb B n (step B c)

/-- Task queue sorted by due time. -/
def SortedQ (l : List Task) : Prop :=
  List.Pairwise (fun a b => a.due ≤ b.due) l

/-- Gesture script sorted by time. -/
def SortedI (l : List (Nat × UserAction)) : Prop :=
  List.Pairwise (fun a b => a.1 ≤ b.1) l

instance (l : List (Nat × UserAction)) : Decidable (SortedI l) :=
  inferInstanceAs
    (Decidable (List.Pairwise (fun a b : Nat × UserAction => a.1 ≤ b.1) l))

/-- A poll-driven status-line write occurring strictly after time `cut`. -/
def pollStatusWriteAfter (cut : Nat) : Event → Bool
  | .setStatus _ (.poll _) t => cut < t
  | _ => false

/-- Scheduling sanity along a run: the task queue is sorted, pending work and
remaining inputs lie in the future, logged events lie in the past. -/
structure InvA (c : Config) : Prop where
  sortedT : SortedQ c.tasks
  dueGe : ∀ tk ∈ c.tasks, c.now ≤ tk.due
  sortedI : SortedI c.inputs
  inGe : ∀ p ∈ c.inputs, c.now ≤ p.1
  traceLe : ∀ e ∈ c.trace, etime e ≤ c.now

/-- Job bookkeeping along a run: freshness of job ids, the exactly-once
discipline of the 5-second finalize timer of each job (`finOnce`/`finDue`),
the fact that a finalize marker only exists once the interval was cleared
(`clearBegan`), and the resulting ordering of poll fetches before the
finalize marker (`pollBeforeFin`). -/
structure InvB (c : Config) : Prop where
  taskJobLt : ∀ tk ∈ c.tasks, ∀ j, bodyJob tk.body = some j → j < c.nextJob
  traceJobLt : ∀ e ∈ c.trace, ∀ j, evJob e = some j → j < c.nextJob
  jobIdLt : ∀ jr ∈ c.jobs, jr.id < c.nextJob
  finDue : ∀ jr ∈ c.jobs, ∀ tk ∈ c.tasks, finFireB jr.id tk.body = true →
    tk.due = jr.startTime + 5000
  finOnce : ∀ jr ∈ c.jobs,
    (c.tasks.countP (fun tk => finFireB jr.id tk.body) = 1 ∧
     c.trace.filter (isBeganJ jr.id) = [] ∧
     c.trace.filter (isPPJ jr.id) = []) ∨
    (c.tasks.countP (fun tk => finFireB jr.id tk.body) = 0 ∧
     c.trace.filter (isBeganJ jr.id) =
       [Event.finalizeBegan jr.id (jr.startTime + 5000)] ∧
     c.trace.filter (isPPJ jr.id) =
       [Event.fetch .processPrompt (.finalize jr.id) (jr.startTime + 5000)])
  clearBegan : ∀ jr ∈ c.jobs, jr.intervalCleared = false →
    c.trace.filter (isBeganJ jr.id) = []
  pollBeforeFin : ∀ j t t', Event.fetch .checkStatus (.poll j) t ∈ c.trace →
    Event.finalizeBegan j t' ∈ c.trace → t ≤ t'

/-- The download-gating invariant (holds under the single-outstanding-job
discipline): the button is visible exactly when the last reconciliation saw
`completed`, the button is hidden while a finalize chain is pending, and at
most one finalize chain is pending. -/
structure FInv (c : Config) : Prop where
  gate : c.ui.downloadVisible = true ↔ c.ghostReconciled = some .completed
  chainHidden : ∀ tk ∈ c.tasks, finChainB tk.body = true →
    c.ui.downloadVisible = false
  chainOne : c.tasks.countP (fun tk => finChainB tk.body) ≤ 1

/-! ### Concrete scenario data (used by witnesses and counterexamples) -/

/-- Backend that always reports `processing` quickly and accepts the POST. -/
def bkProcessing : Backend :=
  { statusAt := fun _ => ⟨100, some (.processing, 1)⟩,
    promptAt := fun _ => ⟨100, some "ok".toList⟩,
    outputAt := fun _ => ⟨100, some true⟩ }

/-- Backend that always reports `completed` (timestamp 7). -/
def bkCompleted : Backend :=
  { statusAt := fun _ => ⟨100, some (.completed, 7)⟩,
    promptAt := fun _ => ⟨100, some "ok".toList⟩,
    outputAt := fun _ => ⟨100, some true⟩ }

/-- Backend where the status fetch issued by the second poll tick (request
index 1) takes 2500 ms, so its reply is still in flight when the finalize
timer fires. -/
def bkSlowPoll : Backend :=
  { statusAt := fun k => if k = 1 then ⟨2500, some (.processing, 1)⟩
      else ⟨100, some (.processing, 1)⟩,
    promptAt := fun _ => ⟨100, some "ok".toList⟩,
    outputAt := fun _ => ⟨100, some true⟩ }

/-- Backend where the `process_prompt` POST fails (transport error) while
`check_status` reports `completed`. -/
def bkSubmitFail : Backend :=
  { statusAt := fun _ => ⟨100, some (.completed, 7)⟩,
    promptAt := fun _ => ⟨100, none⟩,
    outputAt := fun _ => ⟨100, some true⟩ }

/-- Backend where exactly the post-finalize `check_status` (request index 2
of the single-submission run) fails. -/
def bkFinalCheckFail : Backend :=
  { statusAt := fun k => if k = 2 then ⟨100, none⟩ else ⟨100, some (.processing, 1)⟩,
    promptAt := fun _ => ⟨100, some "ok".toList⟩,
    outputAt := fun _ => ⟨100, some true⟩ }

/-- One text submission at t = 0. -/
def insHello : List (Nat × UserAction) :=
  [(0, .sendMessage "hi".toList)]

/-- One text submission at t = 0, then the new-chat reset at t = 3000,
while the job's poll interval and finalize timer are still live. -/
def insReset : List (Nat × UserAction) :=
  [(0, .sendMessage "hi".toList), (3000, .clickNewChat)]

/-- The claim's phrasing of the extension rule: the lower-cased name ends
in one of the allowed extensions. -/
def hasAllowedExt (name : List Char) : Prop :=
  ∃ e ∈ allowedExtensions, e <:+ (name.map Char.toLower)

instance (name : List Char) : Decidable (hasAllowedExt name) :=
  inferInstanceAs (Decidable (∃ e ∈ allowedExtensions, e <:+ (name.map Char.toLower)))

/-- Recognize an alert dialog in the trace. -/
def isAlertEv : Event → Bool
  | .alert _ _ => true
  | _ => false

/-- The single-submission run against the always-`processing` backend. -/
def processingRun : Config := runN bkProcessing (initConfig insHello) 12

/-- The single-submission run against the always-`completed` backend. -/
def completedRun : Config := runN bkCompleted (initConfig insHello) 12

/-- The single-submission run where the second poll reply is still in
flight when the finalize timer fires. -/
def slowPollRun : Config := runN bkSlowPoll (initConfig insHello) 12

/-- The submit-at-0, reset-at-3000 run. -/
def resetRun : Config := runN bkProcessing (initConfig insReset) 14

/-- The run whose post-finalize `check_status` fetch fails. -/
def finalCheckFailRun : Config := runN bkFinalCheckFail (initConfig insHello) 12

/-- The run whose `process_prompt` POST fails while `check_status` says
`completed`. -/
def submitFailRun : Config := runN bkSubmitFail (initConfig insHello) 12

/-- A 1 MiB file with a disallowed extension. -/
def exeName : List Char := "malware.exe".toList

/-- The script.js revision's handler applied to the 1 MiB `.exe` file. -/
def v1AcceptCfg : Config := handleFileSelectionV1 (initConfig []) exeName (1024 * 1024)

/-! ### Queue and string helper lemmas -/

theorem qInsert_perm (t : Task) (l : List Task) :
    List.Perm (qInsert t l) (t :: l) := by
  induction l with
  | nil => simp [qInsert]
  | cons u us ih =>
    simp only [qInsert]
    split
    · exact List.Perm.refl _
    · exact (ih.cons u).trans (List.Perm.swap t u us)

theorem mem_qInsert {a t : Task} {l : List Task} :
    a ∈ qInsert t l ↔ a = t ∨ a ∈ l := by
  rw [(qInsert_perm t l).mem_iff, List.mem_cons]

theorem countP_qInsert (p : Task → Bool) (t : Task) (l : List Task) :
    (qInsert t l).countP p = l.countP p + (if p t then 1 else 0) := by
  rw [(qInsert_perm t l).countP_eq, List.countP_cons]

theorem countP_qInsert_of_neg (p : Task → Bool) (t : Task) (l : List Task)
    (h : p t = false) : (qInsert t l).countP p = l.countP p := by
  rw [countP_qInsert, h]
  simp

theorem countP_qInsert_of_pos (p : Task → Bool) (t : Task) (l : List Task)
    (h : p t = true) : (qInsert t l).countP p = l.countP p + 1 := by
  rw [countP_qInsert, h]
  simp

theorem sortedQ_qInsert {t : Task} {l : List Task} (h : SortedQ l) :
    SortedQ (qInsert t l) := by
  induction l with
  | nil => simp [qInsert, SortedQ]
  | cons u us ih =>
    rcases List.pairwise_cons.mp h with ⟨hu, hus⟩
    simp only [qInsert]
    split
    · next hlt =>
      refine List.pairwise_cons.mpr ⟨?_, h⟩
      intro b hb
      rcases List.mem_cons.mp hb with hb | hb
      · exact hb ▸ Nat.le_of_lt hlt
      · exact Nat.le_trans (Nat.le_of_lt hlt) (hu b hb)
    · next hge =>
      refine List.pairwise_cons.mpr ⟨?_, ih hus⟩
      intro b hb
      rcases mem_qInsert.mp hb with hb | hb
      · exact hb ▸ Nat.le_of_not_lt hge
      · exact hu b hb

theorem lastDotSuffix_isSuffix :
    ∀ (name s : List Char), lastDotSuffix name = some s → s <:+ name := by
  intro name
  induction name with
  | nil => intro s h; simp [lastDotSuffix] at h
  | cons ch cs ih =>
    intro s h
    cases hcs : lastDotSuffix cs with
    | some s2 =>
      simp only [lastDotSuffix, hcs, Option.some.injEq] at h
      subst h
      exact (ih _ hcs).trans (List.suffix_cons ch cs)
    | none =>
      simp only [lastDotSuffix, hcs] at h
      by_cases hch : ch = '.'
      · simp only [if_pos hch, Option.some.injEq] at h
        subst h
        exact List.suffix_rfl
      · simp only [if_neg hch] at h
        exact absurd h (by simp)

theorem extOf_isSuffix (name : List Char) : extOf name <:+ name := by
  unfold extOf
  cases h : lastDotSuffix name with
  | none => exact List.suffix_rfl
  | some s => exact lastDotSuffix_isSuffix name s h

theorem fileDecision_rejectExt {name : List Char} (size : Nat)
    (h : ¬ hasAllowedExt name) : fileDecision name size = .rejectExt := by
  have hx : ((extOf name).map Char.toLower) ∉ allowedExtensions := by
    intro hmem
    exact h ⟨_, hmem, List.IsSuffix.map Char.toLower (extOf_isSuffix name)⟩
  simp [fileDecision, hx]

/-! ### Scheduler inversion lemmas -/

theorem step_eq_idle {B : Backend} {c : Config} (h : nextOf c = .idle) :
    step B c = c := by
  rw [step, h]

theorem step_eq_task {B : Backend} {c : Config} {tk : Task} {c1 : Config}
    (h : nextOf c = .task tk c1) : step B c = runTask B c1 tk.body := by
  rw [step, h]

theorem step_eq_act {B : Backend} {c : Config} {a : UserAction} {c1 : Config}
    (h : nextOf c = .act a c1) : step B c = applyAction B c1 a := by
  rw [step, h]

theorem nextOf_task_inv {c : Config} {tk : Task} {c1 : Config}
    (h : nextOf c = .task tk c1) :
    ∃ ts, c.tasks = tk :: ts ∧ c1 = { c with tasks := ts, now := tk.due } := by
  unfold nextOf at h
  cases ht : c.tasks with
  | nil =>
    cases hi : c.inputs with
    | nil => simp only [ht, hi] at h; exact Next.noConfusion h
    | cons p rest =>
      obtain ⟨t, a0⟩ := p
      simp only [ht, hi] at h
      exact Next.noConfusion h
  | cons tk0 ts0 =>
    cases hi : c.inputs with
    | nil =>
      simp only [ht, hi] at h
      injection h with h1 h2
      exact ⟨ts0, by rw [h1], by rw [← h2, h1]⟩
    | cons p rest =>
      obtain ⟨t, a0⟩ := p
      simp only [ht, hi] at h
      by_cases hle : tk0.due ≤ t
      · rw [if_pos hle] at h
        injection h with h1 h2
        exact ⟨ts0, by rw [h1], by rw [← h2, h1]⟩
      · rw [if_neg hle] at h
        exact Next.noConfusion h

theorem nextOf_act_inv {c : Config} {a : UserAction} {c1 : Config}
    (h : nextOf c = .act a c1) :
    ∃ t rest, c.inputs = (t, a) :: rest ∧ c1 = { c with inputs := rest, now := t } := by
  unfold nextOf at h
  cases ht : c.tasks with
  | nil =>
    cases hi : c.inputs with
    | nil => simp only [ht, hi] at h; exact Next.noConfusion h
    | cons p rest =>
      obtain ⟨t, a0⟩ := p
      simp only [ht, hi] at h
      injection h with h1 h2
      exact ⟨t, rest, by rw [h1], by rw [← h2]⟩
  | cons tk0 ts0 =>
    cases hi : c.inputs with
    | nil => simp only [ht, hi] at h; exact Next.noConfusion h
    | cons p rest =>
      obtain ⟨t, a0⟩ := p
      simp only [ht, hi] at h
      by_cases hle : tk0.due ≤ t
      · rw [if_pos hle] at h; exact Next.noConfusion h
      · rw [if_neg hle] at h
        injection h with h1 h2
        exact ⟨t, rest, by rw [h1], by rw [← h2]⟩

/-! ### The download-gating invariant (claim C4) -/

theorem finChainB_jobTaskB {b : TaskBody} (h : finChainB b = true) :
    jobTaskB b = true := by
  cases b <;> simp_all [finChainB, jobTaskB]

theorem quiescent_countP {c : Config} (h : jobQuiescent c = true) :
    c.tasks.countP (fun tk => finChainB tk.body) = 0 := by
  rw [List.countP_eq_zero]
  intro tk hm
  have h2 := (List.all_eq_true.mp h) tk hm
  simp only [Bool.not_eq_true'] at h2
  simp only [Bool.not_eq_true]
  cases hfc : finChainB tk.body
  · rfl
  · rw [finChainB_jobTaskB hfc] at h2; cases h2

theorem FInv_transport {c c2 : Config} (h : FInv c)
    (hv : c2.ui.downloadVisible = c.ui.downloadVisible)
    (hg : c2.ghostReconciled = c.ghostReconciled)
    (ht : ∀ tk ∈ c2.tasks, tk ∈ c.tasks ∨ finChainB tk.body = false)
    (hc : c2.tasks.countP (fun tk => finChainB tk.body) ≤
          c.tasks.countP (fun tk => finChainB tk.body)) : FInv c2 := by
  refine ⟨?_, ?_, Nat.le_trans hc h.chainOne⟩
  · rw [hv, hg]; exact h.gate
  · intro tk hm hfc
    rw [hv]
    rcases ht tk hm with hmem | hfalse
    · exact h.chainHidden tk hmem hfc
    · rw [hfalse] at hfc; cases hfc

theorem FInv_midchain {c : Config} {tk : Task} {ts : List Task} (h : FInv c)
    (hts : c.tasks = tk :: ts) (hfc : finChainB tk.body = true)
    {c2 : Config}
    (hv : c2.ui.downloadVisible = c.ui.downloadVisible)
    (hg : c2.ghostReconciled = c.ghostReconciled)
    {due2 : Nat} {b2 : TaskBody}
    (htsk : c2.tasks = qInsert ⟨due2, b2⟩ ts) : FInv c2 := by
  have hvis : c.ui.downloadVisible = false :=
    h.chainHidden tk (by rw [hts]; exact List.mem_cons_self tk ts) hfc
  have hcount : ts.countP (fun tk => finChainB tk.body) = 0 := by
    have h1 := h.chainOne
    rw [hts, List.countP_cons, if_pos hfc] at h1
    omega
  refine ⟨?_, ?_, ?_⟩
  · rw [hv, hg]; exact h.gate
  · intro tk2 hm2 hfc2
    rw [hv]; exact hvis
  · rw [htsk, countP_qInsert, hcount]
    split <;> omega

/-- FInv is preserved by one scheduler step, provided a submission step only
happens when no job task is pending (the spec's single-outstanding-job
discipline). -/
theorem finv_step (B : Backend) (c : Config) (hF : FInv c)
    (hguard : isSubmissionNext c = false ∨ jobQuiescent c = true) :
    FInv (step B c) := by
  cases hn : nextOf c with
  | idle => rw [step_eq_idle hn]; exact hF
  | task tk c1 =>
    rw [step_eq_task hn]
    obtain ⟨ts, hts, rfl⟩ := nextOf_task_inv hn
    have hpop : ∀ tk2 ∈ ts, tk2 ∈ c.tasks := by
      intro tk2 hm; rw [hts]; exact List.mem_cons_of_mem tk hm
    have hcpop : ts.countP (fun tk => finChainB tk.body) ≤
        c.tasks.countP (fun tk => finChainB tk.body) := by
      rw [hts, List.countP_cons]; omega
    cases hb : tk.body with
    | pollTick j =>
      simp only [runTask]
      split
      · exact FInv_transport hF rfl rfl (fun tk2 hm => Or.inl (hpop tk2 hm)) hcpop
      · split
        · exact FInv_transport hF rfl rfl (fun tk2 hm => Or.inl (hpop tk2 hm)) hcpop
        · split
          · simp only [markCleared]
            exact FInv_transport hF rfl rfl (fun tk2 hm => Or.inl (hpop tk2 hm)) hcpop
          · simp only [issueStatus, schedule]
            refine FInv_transport hF rfl rfl ?_ ?_
            · intro tk2 hm
              rcases mem_qInsert.mp hm with rfl | hm2
              · exact Or.inr rfl
              · rcases mem_qInsert.mp hm2 with rfl | hm3
                · exact Or.inr rfl
                · exact Or.inl (hpop _ hm3)
            · rw [countP_qInsert_of_neg _ _ _ rfl, countP_qInsert_of_neg _ _ _ rfl]
              exact hcpop
    | pollResume j r =>
      cases r with
      | none =>
        simp only [runTask, setStatusText]
        exact FInv_transport hF rfl rfl (fun tk2 hm => Or.inl (hpop tk2 hm)) hcpop
      | some sv =>
        obtain ⟨s, tsv⟩ := sv
        simp only [runTask, setStatusText]
        exact FInv_transport hF rfl rfl (fun tk2 hm => Or.inl (hpop tk2 hm)) hcpop
    | finalizeFire j =>
      simp only [runTask, logEvent, markDoneCleared, removeChat, issuePrompt, schedule]
      exact FInv_midchain hF hts (by rw [hb]; rfl) rfl rfl rfl
    | submitResume j r =>
      cases r with
      | none =>
        simp only [runTask, addChat, issueStatus, schedule]
        exact FInv_midchain hF hts (by rw [hb]; rfl) rfl rfl rfl
      | some txt =>
        simp only [runTask, addChat, issueStatus, schedule]
        exact FInv_midchain hF hts (by rw [hb]; rfl) rfl rfl rfl
    | finalResume j r =>
      have hfc : finChainB tk.body = true := by rw [hb]; rfl
      have hvis : c.ui.downloadVisible = false :=
        hF.chainHidden tk (by rw [hts]; exact List.mem_cons_self tk ts) hfc
      have hcount : ts.countP (fun tk => finChainB tk.body) = 0 := by
        have h1 := hF.chainOne
        rw [hts, List.countP_cons, if_pos hfc] at h1
        omega
      have hnochain : ∀ tk2 ∈ ts, finChainB tk2.body = false := by
        intro tk2 hm
        have h2 := List.countP_eq_zero.mp hcount tk2 hm
        simpa using h2
      cases r with
      | none =>
        simp only [runTask, logEvent]
        exact FInv_transport hF rfl rfl (fun tk2 hm => Or.inl (hpop tk2 hm)) hcpop
      | some sv =>
        obtain ⟨s, tsv⟩ := sv
        cases s with
        | completed =>
          simp only [runTask, finalStatusText, setStatusText]
          refine ⟨?_, ?_, ?_⟩
          · simp
          · intro tk2 hm hfc2
            rw [hnochain tk2 hm] at hfc2; cases hfc2
          · show ts.countP (fun tk2 => finChainB tk2.body) ≤ 1
            omega
        | failed =>
          simp only [runTask, finalStatusText, setStatusText]
          refine ⟨?_, ?_, ?_⟩
          · simp [hvis]
          · intro tk2 hm hfc2
            rw [hnochain tk2 hm] at hfc2; cases hfc2
          · show ts.countP (fun tk2 => finChainB tk2.body) ≤ 1
            omega
        | processing =>
          simp only [runTask, finalStatusText]
          refine ⟨?_, ?_, ?_⟩
          · simp [hvis]
          · intro tk2 hm hfc2
            rw [hnochain tk2 hm] at hfc2; cases hfc2
          · show ts.countP (fun tk2 => finChainB tk2.body) ≤ 1
            omega
        | unknown =>
          simp only [runTask, finalStatusText]
          refine ⟨?_, ?_, ?_⟩
          · simp [hvis]
          · intro tk2 hm hfc2
            rw [hnochain tk2 hm] at hfc2; cases hfc2
          · show ts.countP (fun tk2 => finChainB tk2.body) ≤ 1
            omega
    | dlStatusResume r =>
      cases r with
      | none =>
        simp only [runTask, logEvent]
        exact FInv_transport hF rfl rfl (fun tk2 hm => Or.inl (hpop tk2 hm)) hcpop
      | some sv =>
        obtain ⟨s, tsv⟩ := sv
        simp only [runTask]
        split
        · simp only [logEvent]
          exact FInv_transport hF rfl rfl (fun tk2 hm => Or.inl (hpop tk2 hm)) hcpop
        · split
          · simp only [logEvent]
            exact FInv_transport hF rfl rfl (fun tk2 hm => Or.inl (hpop tk2 hm)) hcpop
          · simp only [issueOutput, schedule]
            refine FInv_transport hF rfl rfl ?_ ?_
            · intro tk2 hm
              rcases mem_qInsert.mp hm with rfl | hm2
              · exact Or.inr rfl
              · exact Or.inl (hpop _ hm2)
            · rw [countP_qInsert_of_neg _ _ _ rfl]
              exact hcpop
    | dlOutputResume r =>
      cases r with
      | none =>
        simp only [runTask, logEvent]
        exact FInv_transport hF rfl rfl (fun tk2 hm => Or.inl (hpop tk2 hm)) hcpop
      | some b =>
        cases b with
        | false =>
          simp only [runTask, logEvent]
          exact FInv_transport hF rfl rfl (fun tk2 hm => Or.inl (hpop tk2 hm)) hcpop
        | true =>
          simp only [runTask, setStatusText, logEvent, schedule]
          refine FInv_transport hF rfl rfl ?_ ?_
          · intro tk2 hm
            rcases mem_qInsert.mp hm with rfl | hm2
            · exact Or.inr rfl
            · exact Or.inl (hpop _ hm2)
          · rw [countP_qInsert_of_neg _ _ _ rfl]
            exact hcpop
    | dlShowDone =>
      simp only [runTask, setStatusText, schedule]
      refine FInv_transport hF rfl rfl ?_ ?_
      · intro tk2 hm
        rcases mem_qInsert.mp hm with rfl | hm2
        · exact Or.inr rfl
        · exact Or.inl (hpop _ hm2)
      · rw [countP_qInsert_of_neg _ _ _ rfl]
        exact hcpop
    | dlClearText =>
      simp only [runTask, setStatusText]
      exact FInv_transport hF rfl rfl (fun tk2 hm => Or.inl (hpop tk2 hm)) hcpop
  | act a c1 =>
    rw [step_eq_act hn]
    obtain ⟨t, rest, hin, rfl⟩ := nextOf_act_inv hn
    have hsub : submissionAction a = true → jobQuiescent c = true := by
      intro hs
      rcases hguard with hg | hg
      · simp only [isSubmissionNext, hn] at hg
        simp [hs] at hg
      · exact hg
    cases a with
    | clickNewChat =>
      simp only [applyAction, newChatClick, setStatusText]
      refine ⟨by simp, ?_, hF.chainOne⟩
      intro tk2 hm hfc2
      rfl
    | clickDownload =>
      simp only [applyAction, downloadClick, issueStatus, schedule]
      refine FInv_transport hF rfl rfl ?_ ?_
      · intro tk2 hm
        rcases mem_qInsert.mp hm with rfl | hm2
        · exact Or.inr rfl
        · exact Or.inl hm2
      · rw [countP_qInsert_of_neg _ _ _ rfl]
    | sendMessage txt =>
      simp only [applyAction, sendMessage]
      by_cases hb : trimL txt = []
      · rw [if_pos hb]
        exact FInv_transport hF rfl rfl (fun tk2 hm => Or.inl hm) (Nat.le_refl _)
      · rw [if_neg hb]
        have hq : jobQuiescent c = true := by
          apply hsub
          simp [submissionAction, hb]
        have hz : c.tasks.countP (fun tk => finChainB tk.body) = 0 :=
          quiescent_countP hq
        simp only [startProcessingFlow, addChat, setStatusText, schedule]
        refine ⟨by simp, ?_, ?_⟩
        · intro tk2 hm hfc2
          rfl
        · rw [countP_qInsert_of_pos _ _ _ rfl, countP_qInsert_of_neg _ _ _ rfl, hz]
    | selectFile name size =>
      simp only [applyAction, handleFileSelection]
      split
      · simp only [logEvent]
        exact FInv_transport hF rfl rfl (fun tk2 hm => Or.inl hm) (Nat.le_refl _)
      · simp only [logEvent]
        exact FInv_transport hF rfl rfl (fun tk2 hm => Or.inl hm) (Nat.le_refl _)
      · next hd =>
        have hq : jobQuiescent c = true := by
          apply hsub
          simp [submissionAction, hd]
        have hz : c.tasks.countP (fun tk => finChainB tk.body) = 0 :=
          quiescent_countP hq
        simp only [startProcessingFlow, addChat, setStatusText, schedule]
        refine ⟨by simp, ?_, ?_⟩
        · intro tk2 hm hfc2
          rfl
        · rw [countP_qInsert_of_pos _ _ _ rfl, countP_qInsert_of_neg _ _ _ rfl, hz]

theorem finv_init (ins : List (Nat × UserAction)) : FInv (initConfig ins) := by
  refine ⟨by simp [initConfig], ?_, by simp [initConfig]⟩
  intro tk hm
  simp [initConfig] at hm

theorem finv_runN (B : Backend) :
    ∀ (n : Nat) (c : Config), FInv c → seqOKb B n c = true → FInv (runN B c n) := by
  intro n
  induction n with
  | zero => intro c hF _; exact hF
  | succ n ih =>
    intro c hF hseq
    rw [seqOKb, Bool.and_eq_true] at hseq
    have hguard : isSubmissionNext c = false ∨ jobQuiescent c = true := by
      have h1 := hseq.1
      by_cases hs : isSubmissionNext c = true
      · right
        simpa [hs] using h1
      · left
        simpa using hs
    exact ih (step B c) (finv_step B c hF hguard) hseq.2

/-! ### Event and task classifier lemmas -/

theorem finFireB_true_iff {jid : Nat} {b : TaskBody} :
    finFireB jid b = true ↔ b = .finalizeFire jid := by
  cases b <;> simp [finFireB]

theorem bodyJob_of_finFireB {jid : Nat} {b : TaskBody} (h : finFireB jid b = true) :
    bodyJob b = some jid := by
  rw [finFireB_true_iff.mp h]; rfl

theorem isBeganJ_true_iff {j : Nat} {e : Event} :
    isBeganJ j e = true ↔ ∃ t, e = .finalizeBegan j t := by
  cases e <;> simp [isBeganJ]

theorem isPPJ_true_iff {j : Nat} {e : Event} :
    isPPJ j e = true ↔ ∃ t, e = .fetch .processPrompt (.finalize j) t := by
  cases e with
  | fetch ep src t => cases ep <;> cases src <;> simp [isPPJ]
  | setStatus txt src t => simp [isPPJ]
  | chatAdd m t => simp [isPPJ]
  | chatClear t => simp [isPPJ]
  | alert k t => simp [isPPJ]
  | navigate t => simp [isPPJ]
  | finalizeBegan k t => simp [isPPJ]
  | uncaught t => simp [isPPJ]

theorem isPollFetchJ_true_iff {j : Nat} {e : Event} :
    isPollFetchJ j e = true ↔ ∃ t, e = .fetch .checkStatus (.poll j) t := by
  cases e with
  | fetch ep src t => cases ep <;> cases src <;> simp [isPollFetchJ]
  | setStatus txt src t => simp [isPollFetchJ]
  | chatAdd m t => simp [isPollFetchJ]
  | chatClear t => simp [isPollFetchJ]
  | alert k t => simp [isPollFetchJ]
  | navigate t => simp [isPollFetchJ]
  | finalizeBegan k t => simp [isPollFetchJ]
  | uncaught t => simp [isPollFetchJ]

theorem evJob_of_isBeganJ {j : Nat} {e : Event} (h : isBeganJ j e = true) :
    evJob e = some j := by
  obtain ⟨t, rfl⟩ := isBeganJ_true_iff.mp h; rfl

theorem evJob_of_isPPJ {j : Nat} {e : Event} (h : isPPJ j e = true) :
    evJob e = some j := by
  obtain ⟨t, rfl⟩ := isPPJ_true_iff.mp h; rfl

/-! ### Folded insertion lemmas -/

theorem mem_foldr_qInsert {x : Task} {nts : List Task} {l : List Task} :
    x ∈ nts.foldr qInsert l ↔ x ∈ nts ∨ x ∈ l := by
  induction nts with
  | nil => simp
  | cons a as ih =>
    simp only [List.foldr_cons, mem_qInsert, ih, List.mem_cons]
    tauto

theorem sortedQ_foldr_qInsert {nts : List Task} {l : List Task} (h : SortedQ l) :
    SortedQ (nts.foldr qInsert l) := by
  induction nts with
  | nil => exact h
  | cons a as ih => exact sortedQ_qInsert ih

theorem countP_foldr_qInsert (p : Task → Bool) {nts : List Task} (l : List Task)
    (h : ∀ x ∈ nts, p x = false) :
    (nts.foldr qInsert l).countP p = l.countP p := by
  induction nts with
  | nil => rfl
  | cons a as ih =>
    rw [List.foldr_cons, countP_qInsert_of_neg _ _ _ (h a (List.mem_cons_self a as))]
    exact ih (fun x hx => h x (List.mem_cons_of_mem a hx))

/-! ### InvA machinery -/

theorem invA_build (c1 : Config) (hA : InvA c1)
    (newTasks : List Task) (hnt : ∀ x ∈ newTasks, c1.now ≤ x.due)
    (newEvs : List Event) (hne : ∀ e ∈ newEvs, etime e = c1.now)
    (c2 : Config)
    (htasks : c2.tasks = newTasks.foldr qInsert c1.tasks)
    (htrace : c2.trace = newEvs ++ c1.trace)
    (hnow : c2.now = c1.now) (hins : c2.inputs = c1.inputs) : InvA c2 := by
  refine ⟨?_, ?_, ?_, ?_, ?_⟩
  · rw [htasks]; exact sortedQ_foldr_qInsert hA.sortedT
  · intro tk hm
    rw [htasks] at hm
    rw [hnow]
    rcases mem_foldr_qInsert.mp hm with hm2 | hm2
    · exact hnt tk hm2
    · exact hA.dueGe tk hm2
  · rw [hins]; exact hA.sortedI
  · intro p hp
    rw [hins] at hp
    rw [hnow]
    exact hA.inGe p hp
  · intro e he
    rw [htrace] at he
    rw [hnow]
    rcases List.mem_append.mp he with he2 | he2
    · exact Nat.le_of_eq (hne e he2)
    · exact hA.traceLe e he2

theorem invA_pop_task (c : Config) (hA : InvA c) {tk : Task} {ts : List Task}
    (hts : c.tasks = tk :: ts)
    (hhead : c.inputs = [] ∨ ∃ t0 a0 r0, c.inputs = (t0, a0) :: r0 ∧ tk.due ≤ t0) :
    InvA { c with tasks := ts, now := tk.due } := by
  have hsort := hA.sortedT
  rw [hts] at hsort
  rcases List.pairwise_cons.mp hsort with ⟨hhd, htl⟩
  refine ⟨htl, ?_, hA.sortedI, ?_, ?_⟩
  · intro tk2 hm
    exact hhd tk2 hm
  · intro p hp
    rcases hhead with hnil | ⟨t0, a0, r0, hin, hle⟩
    · rw [hnil] at hp; cases hp
    · rw [hin] at hp
      rcases List.mem_cons.mp hp with rfl | hp2
      · exact hle
      · have hs := hA.sortedI
        rw [hin] at hs
        rcases List.pairwise_cons.mp hs with ⟨hhd2, _⟩
        exact Nat.le_trans hle (hhd2 p hp2)
  · intro e he
    have h1 := hA.traceLe e he
    have h2 : c.now ≤ tk.due := hA.dueGe tk (by rw [hts]; exact List.mem_cons_self tk ts)
    exact Nat.le_trans h1 h2

theorem invA_pop_act (c : Config) (hA : InvA c) {t : Nat} {a : UserAction}
    {rest : List (Nat × UserAction)} (hin : c.inputs = (t, a) :: rest)
    (hhead : c.tasks = [] ∨ ∃ tk0 ts0, c.tasks = tk0 :: ts0 ∧ t < tk0.due) :
    InvA { c with inputs := rest, now := t } := by
  have hsi := hA.sortedI
  rw [hin] at hsi
  rcases List.pairwise_cons.mp hsi with ⟨hhd, htl⟩
  refine ⟨hA.sortedT, ?_, htl, ?_, ?_⟩
  · intro tk2 hm
    rcases hhead with hnil | ⟨tk0, ts0, hts, hlt⟩
    · rw [hnil] at hm; cases hm
    · rw [hts] at hm
      have hsort := hA.sortedT
      rw [hts] at hsort
      rcases List.pairwise_cons.mp hsort with ⟨hhd2, _⟩
      rcases List.mem_cons.mp hm with rfl | hm2
      · exact Nat.le_of_lt hlt
      · exact Nat.le_trans (Nat.le_of_lt hlt) (hhd2 tk2 hm2)
  · intro p hp
    exact hhd p hp
  · intro e he
    have h1 := hA.traceLe e he
    have h2 : c.now ≤ t := hA.inGe (t, a) (by rw [hin]; exact List.mem_cons_self _ _)
    exact Nat.le_trans h1 h2

theorem nextOf_task_headIn {c : Config} {tk : Task} {c1 : Config}
    (h : nextOf c = .task tk c1) :
    c.inputs = [] ∨ ∃ t0 a0 r0, c.inputs = (t0, a0) :: r0 ∧ tk.due ≤ t0 := by
  unfold nextOf at h
  cases hi : c.inputs with
  | nil => exact Or.inl rfl
  | cons p rest =>
    obtain ⟨t, a0⟩ := p
    cases ht : c.tasks with
    | nil =>
      simp only [ht, hi] at h
      exact Next.noConfusion h
    | cons tk0 ts0 =>
      simp only [ht, hi] at h
      by_cases hle : tk0.due ≤ t
      · rw [if_pos hle] at h
        injection h with h1 h2
        exact Or.inr ⟨t, a0, rest, rfl, by rw [← h1]; exact hle⟩
      · rw [if_neg hle] at h
        exact Next.noConfusion h

theorem nextOf_act_headTask {c : Config} {a : UserAction} {c1 : Config} {t : Nat}
    {rest : List (Nat × UserAction)}
    (h : nextOf c = .act a c1) (hin : c.inputs = (t, a) :: rest) :
    c.tasks = [] ∨ ∃ tk0 ts0, c.tasks = tk0 :: ts0 ∧ t < tk0.due := by
  unfold nextOf at h
  cases ht : c.tasks with
  | nil => exact Or.inl rfl
  | cons tk0 ts0 =>
    cases hi : c.inputs with
    | nil => simp only [ht, hi] at h; exact Next.noConfusion h
    | cons p rest2 =>
      obtain ⟨t2, a2⟩ := p
      simp only [ht, hi] at h
      by_cases hle : tk0.due ≤ t2
      · rw [if_pos hle] at h; exact Next.noConfusion h
      · rw [if_neg hle] at h
        have ht2 : t2 = t := by
          rw [hin] at hi
          injection hi with h1 _
          injection h1 with h2 _
          exact h2.symm
        exact Or.inr ⟨tk0, ts0, rfl, by rw [← ht2]; exact Nat.lt_of_not_le hle⟩

/-! ### InvB machinery -/

theorem invB_build (c : Config) (hB : InvB c)
    (base : List Task)
    (hsub : ∀ x ∈ base, x ∈ c.tasks)
    (hcnt : ∀ j, base.countP (fun x => finFireB j x.body) =
            c.tasks.countP (fun x => finFireB j x.body))
    (newTasks : List Task)
    (hnt1 : ∀ x ∈ newTasks, ∀ j, finFireB j x.body = false)
    (hnt2 : ∀ x ∈ newTasks, ∀ j, bodyJob x.body = some j → j < c.nextJob)
    (newEvs : List Event)
    (hne1 : ∀ e ∈ newEvs, ∀ j, isBeganJ j e = false ∧ isPPJ j e = false ∧
            (isPollFetchJ j e = false ∨ c.trace.filter (isBeganJ j) = []))
    (hne2 : ∀ e ∈ newEvs, ∀ j, evJob e = some j → j < c.nextJob)
    (c2 : Config)
    (htasks : c2.tasks = newTasks.foldr qInsert base)
    (htrace : c2.trace = newEvs ++ c.trace)
    (hjobs : c2.jobs = c.jobs)
    (hnj : c2.nextJob = c.nextJob) : InvB c2 := by
  have hfilterB : ∀ j, c2.trace.filter (isBeganJ j) = c.trace.filter (isBeganJ j) := by
    intro j
    rw [htrace, List.filter_append]
    have hz : newEvs.filter (isBeganJ j) = [] :=
      List.filter_eq_nil_iff.mpr (fun e he => by rw [(hne1 e he j).1]; simp)
    rw [hz, List.nil_append]
  have hfilterP : ∀ j, c2.trace.filter (isPPJ j) = c.trace.filter (isPPJ j) := by
    intro j
    rw [htrace, List.filter_append]
    have hz : newEvs.filter (isPPJ j) = [] :=
      List.filter_eq_nil_iff.mpr (fun e he => by rw [(hne1 e he j).2.1]; simp)
    rw [hz, List.nil_append]
  have hcnt2 : ∀ j, c2.tasks.countP (fun x => finFireB j x.body) =
      c.tasks.countP (fun x => finFireB j x.body) := by
    intro j
    rw [htasks, countP_foldr_qInsert _ _ (fun x hx => hnt1 x hx j), hcnt j]
  refine ⟨?_, ?_, ?_, ?_, ?_, ?_, ?_⟩
  · intro tk hm j hj
    rw [htasks] at hm
    rw [hnj]
    rcases mem_foldr_qInsert.mp hm with hm2 | hm2
    · exact hnt2 tk hm2 j hj
    · exact hB.taskJobLt tk (hsub tk hm2) j hj
  · intro e he j hj
    rw [htrace] at he
    rw [hnj]
    rcases List.mem_append.mp he with he2 | he2
    · exact hne2 e he2 j hj
    · exact hB.traceJobLt e he2 j hj
  · intro jr hjr
    rw [hjobs] at hjr
    rw [hnj]
    exact hB.jobIdLt jr hjr
  · intro jr hjr tk hm hf
    rw [hjobs] at hjr
    rw [htasks] at hm
    rcases mem_foldr_qInsert.mp hm with hm2 | hm2
    · rw [hnt1 tk hm2 jr.id] at hf; cases hf
    · exact hB.finDue jr hjr tk (hsub tk hm2) hf
  · intro jr hjr
    rw [hjobs] at hjr
    rw [hcnt2 jr.id, hfilterB jr.id, hfilterP jr.id]
    exact hB.finOnce jr hjr
  · intro jr hjr hcl
    rw [hjobs] at hjr
    rw [hfilterB jr.id]
    exact hB.clearBegan jr hjr hcl
  · intro j t t' hp hb
    rw [htrace] at hp hb
    rcases List.mem_append.mp hp with hp2 | hp2
    · rcases (hne1 _ hp2 j).2.2 with hpf | hclr
      · simp [isPollFetchJ] at hpf
      · rcases List.mem_append.mp hb with hb2 | hb2
        · have hfb := (hne1 _ hb2 j).1
          simp [isBeganJ] at hfb
        · have := List.filter_eq_nil_iff.mp hclr _ hb2
          simp [isBeganJ] at this
    · rcases List.mem_append.mp hb with hb2 | hb2
      · have hfb := (hne1 _ hb2 j).1
        simp [isBeganJ] at hfb
      · exact hB.pollBeforeFin j t t' hp2 hb2

theorem invB_markCleared (c2 : Config) (hB : InvB c2) (j : Nat) :
    InvB (markCleared c2 j) := by
  have hmem : ∀ jr2 ∈ (markCleared c2 j).jobs, ∃ jr ∈ c2.jobs,
      jr2.id = jr.id ∧ jr2.startTime = jr.startTime ∧
      (jr2.intervalCleared = false → jr.intervalCleared = false) := by
    intro jr2 hm
    simp only [markCleared] at hm
    rcases List.mem_map.mp hm with ⟨jr, hjr, heq⟩
    by_cases hid : jr.id = j
    · refine ⟨jr, hjr, by rw [← heq]; simp [hid], by rw [← heq]; simp [hid], ?_⟩
      intro hfalse
      rw [← heq] at hfalse
      simp [hid] at hfalse
    · exact ⟨jr, hjr, by rw [← heq]; simp [hid], by rw [← heq]; simp [hid],
        fun h => by rw [← heq] at h; simpa [hid] using h⟩
  refine ⟨hB.taskJobLt, hB.traceJobLt, ?_, ?_, ?_, ?_, hB.pollBeforeFin⟩
  · intro jr2 hm
    obtain ⟨jr, hjr, hid, _, _⟩ := hmem jr2 hm
    rw [hid]
    exact hB.jobIdLt jr hjr
  · intro jr2 hm tk htk hf
    obtain ⟨jr, hjr, hid, hst, _⟩ := hmem jr2 hm
    rw [hid] at hf
    rw [hst]
    exact hB.finDue jr hjr tk htk hf
  · intro jr2 hm
    obtain ⟨jr, hjr, hid, hst, _⟩ := hmem jr2 hm
    rw [hid, hst]
    exact hB.finOnce jr hjr
  · intro jr2 hm hcl
    obtain ⟨jr, hjr, hid, _, hclr⟩ := hmem jr2 hm
    rw [hid]
    exact hB.clearBegan jr hjr (hclr hcl)

theorem invB_finalize (c : Config) (hA : InvA c) (hB : InvB c)
    {tk : Task} {ts : List Task} {j : Nat}
    (hts : c.tasks = tk :: ts) (hbody : tk.body = .finalizeFire j)
    {d2 : Nat} {r : Option (List Char)}
    (c2 : Config)
    (htasks : c2.tasks = qInsert ⟨d2, .submitResume j r⟩ ts)
    (htrace : c2.trace = Event.fetch .processPrompt (.finalize j) tk.due ::
        Event.finalizeBegan j tk.due :: c.trace)
    (hjobs : c2.jobs = c.jobs.map (fun jr => if jr.id = j then
        { jr with processingDone := true, intervalCleared := true } else jr))
    (hnj : c2.nextJob = c.nextJob) : InvB c2 := by
  have htkmem : tk ∈ c.tasks := by rw [hts]; exact List.mem_cons_self tk ts
  have hjlt : j < c.nextJob := hB.taskJobLt tk htkmem j (by rw [hbody]; rfl)
  have hmem2 : ∀ jr2 ∈ c2.jobs, ∃ jr ∈ c.jobs, jr2.id = jr.id ∧
      jr2.startTime = jr.startTime ∧
      (jr2.intervalCleared = false → (jr.intervalCleared = false ∧ jr.id ≠ j)) := by
    intro jr2 hm
    rw [hjobs] at hm
    rcases List.mem_map.mp hm with ⟨jr, hjr, heq⟩
    by_cases hid : jr.id = j
    · refine ⟨jr, hjr, by rw [← heq]; simp [hid], by rw [← heq]; simp [hid], ?_⟩
      intro hfalse
      rw [← heq] at hfalse
      simp [hid] at hfalse
    · exact ⟨jr, hjr, by rw [← heq]; simp [hid], by rw [← heq]; simp [hid],
        fun h => ⟨by rw [← heq] at h; simpa [hid] using h, hid⟩⟩
  refine ⟨?_, ?_, ?_, ?_, ?_, ?_, ?_⟩
  · intro tk2 hm j2 hj2
    rw [htasks] at hm
    rw [hnj]
    rcases mem_qInsert.mp hm with rfl | hm2
    · simp only [bodyJob] at hj2
      injection hj2 with hh
      rw [← hh]
      exact hjlt
    · exact hB.taskJobLt tk2 (by rw [hts]; exact List.mem_cons_of_mem tk hm2) j2 hj2
  · intro e he j2 hj2
    rw [htrace] at he
    rw [hnj]
    rcases List.mem_cons.mp he with rfl | he2
    · simp only [evJob, srcJob] at hj2
      injection hj2 with hh
      rw [← hh]
      exact hjlt
    · rcases List.mem_cons.mp he2 with rfl | he3
      · simp only [evJob] at hj2
        injection hj2 with hh
        rw [← hh]
        exact hjlt
      · exact hB.traceJobLt e he3 j2 hj2
  · intro jr2 hm
    obtain ⟨jr, hjr, hid, _, _⟩ := hmem2 jr2 hm
    rw [hid, hnj]
    exact hB.jobIdLt jr hjr
  · intro jr2 hm tk2 htk2 hf
    obtain ⟨jr, hjr, hid, hst, _⟩ := hmem2 jr2 hm
    rw [htasks] at htk2
    rcases mem_qInsert.mp htk2 with rfl | hm3
    · simp [finFireB] at hf
    · rw [hid] at hf
      rw [hst]
      exact hB.finDue jr hjr tk2 (by rw [hts]; exact List.mem_cons_of_mem tk hm3) hf
  · intro jr2 hm
    obtain ⟨jr, hjr, hid, hst, _⟩ := hmem2 jr2 hm
    have hpred : ∀ jid, finFireB jid tk.body = (j == jid) := by
      intro jid; rw [hbody]; rfl
    by_cases hidj : jr.id = j
    · -- the job whose finalize timer just fired
      have hfire : finFireB jr.id tk.body = true := by
        rw [hpred jr.id, hidj]; simp
      rcases hB.finOnce jr hjr with ⟨h1, h2, h3⟩ | ⟨h1, h2, h3⟩
      · right
        have hdue : tk.due = jr.startTime + 5000 := hB.finDue jr hjr tk htkmem hfire
        have hts0 : ts.countP (fun x => finFireB jr.id x.body) = 0 := by
          rw [hts, List.countP_cons, if_pos hfire] at h1
          omega
        refine ⟨?_, ?_, ?_⟩
        · rw [hid, htasks,
            countP_qInsert_of_neg _ _ _ (by simp [finFireB]), hts0]
        · rw [hid, hst, htrace]
          rw [List.filter_cons_of_neg (by simp [isBeganJ]),
            List.filter_cons_of_pos (by simp [isBeganJ, hidj]), h2, hidj, hdue]
        · rw [hid, hst, htrace]
          rw [List.filter_cons_of_pos (by simp [isPPJ, hidj]),
            List.filter_cons_of_neg (by simp [isPPJ]), h3, hidj, hdue]
      · -- already fired once: impossible, the timer task was still pending
        exfalso
        have := List.countP_eq_zero.mp h1 tk htkmem
        rw [hfire] at this
        exact this rfl
    · -- an unrelated job
      have hne : (j == jr.id) = false := by
        simp only [beq_eq_false_iff_ne, ne_eq]
        exact fun hh => hidj (by rw [← hh])
      have hcnt3 : c2.tasks.countP (fun x => finFireB jr.id x.body) =
          c.tasks.countP (fun x => finFireB jr.id x.body) := by
        rw [htasks, countP_qInsert_of_neg _ _ _ (by simp [finFireB]), hts,
          List.countP_cons]
        have : finFireB jr.id tk.body = false := by rw [hpred jr.id]; exact hne
        rw [this]
        simp
      have hfB2 : c2.trace.filter (isBeganJ jr.id) = c.trace.filter (isBeganJ jr.id) := by
        rw [htrace, List.filter_cons_of_neg (by simp [isBeganJ]),
          List.filter_cons_of_neg (by simp [isBeganJ, hne])]
      have hfP2 : c2.trace.filter (isPPJ jr.id) = c.trace.filter (isPPJ jr.id) := by
        rw [htrace, List.filter_cons_of_neg (by simp [isPPJ, hne]),
          List.filter_cons_of_neg (by simp [isPPJ])]
      rw [hid, hst, hcnt3, hfB2, hfP2]
      exact hB.finOnce jr hjr
  · intro jr2 hm hcl2
    obtain ⟨jr, hjr, hid, hst, hclr⟩ := hmem2 jr2 hm
    obtain ⟨hcljr, hnej⟩ := hclr hcl2
    have hne : (j == jr.id) = false := by
      simp only [beq_eq_false_iff_ne, ne_eq]
      exact fun hh => hnej (by rw [← hh])
    rw [hid, htrace]
    rw [List.filter_cons_of_neg (by simp [isBeganJ]),
      List.filter_cons_of_neg (by simp [isBeganJ, hne])]
    exact hB.clearBegan jr hjr hcljr
  · intro j2 t t' hp hb
    rw [htrace] at hp hb
    rcases List.mem_cons.mp hp with heq | hp2
    · injection heq with h1 h2 h3
      exact Endpoint.noConfusion h1
    · rcases List.mem_cons.mp hp2 with heq | hp3
      · exact Event.noConfusion heq
      · rcases List.mem_cons.mp hb with heq | hb2
        · exact Event.noConfusion heq
        · rcases List.mem_cons.mp hb2 with heq | hb3
          · injection heq with h1 h2
            rw [h2]
            exact Nat.le_trans (hA.traceLe _ hp3) (hA.dueGe tk htkmem)
          · exact hB.pollBeforeFin j2 t t' hp3 hb3

theorem invB_submit (c : Config) (hB : InvB c) (t : Nat)
    (c2 : Config)
    (htasks : c2.tasks = qInsert ⟨t + 5000, .finalizeFire c.nextJob⟩
        (qInsert ⟨t + 2000, .pollTick c.nextJob⟩ c.tasks))
    (newEvs : List Event)
    (hne1 : ∀ e ∈ newEvs, ∀ j, isBeganJ j e = false ∧ isPPJ j e = false ∧
        isPollFetchJ j e = false)
    (hne2 : ∀ e ∈ newEvs, ∀ j, evJob e = some j → j ≤ c.nextJob)
    (htrace : c2.trace = newEvs ++ c.trace)
    (hjobs : c2.jobs = c.jobs ++
      [{ id := c.nextJob, startTime := t, processingDone := false, intervalCleared := false }])
    (hnj : c2.nextJob = c.nextJob + 1) : InvB c2 := by
  have hzero : c.tasks.countP (fun x => finFireB c.nextJob x.body) = 0 := by
    rw [List.countP_eq_zero]
    intro x hx
    simp only [Bool.not_eq_true]
    cases hf : finFireB c.nextJob x.body
    · rfl
    · have := hB.taskJobLt x hx c.nextJob (bodyJob_of_finFireB hf)
      omega
  have hfB : c.trace.filter (isBeganJ c.nextJob) = [] := by
    rw [List.filter_eq_nil_iff]
    intro e he
    simp only [Bool.not_eq_true]
    cases hf : isBeganJ c.nextJob e
    · rfl
    · have := hB.traceJobLt e he c.nextJob (evJob_of_isBeganJ hf)
      omega
  have hfP : c.trace.filter (isPPJ c.nextJob) = [] := by
    rw [List.filter_eq_nil_iff]
    intro e he
    simp only [Bool.not_eq_true]
    cases hf : isPPJ c.nextJob e
    · rfl
    · have := hB.traceJobLt e he c.nextJob (evJob_of_isPPJ hf)
      omega
  have hnewB : ∀ j, newEvs.filter (isBeganJ j) = [] := fun j =>
    List.filter_eq_nil_iff.mpr (fun e he => by rw [(hne1 e he j).1]; simp)
  have hnewP : ∀ j, newEvs.filter (isPPJ j) = [] := fun j =>
    List.filter_eq_nil_iff.mpr (fun e he => by rw [(hne1 e he j).2.1]; simp)
  refine ⟨?_, ?_, ?_, ?_, ?_, ?_, ?_⟩
  · intro tk2 hm j2 hj2
    rw [htasks] at hm
    rw [hnj]
    rcases mem_qInsert.mp hm with rfl | hm2
    · simp only [bodyJob] at hj2
      injection hj2 with hh
      omega
    · rcases mem_qInsert.mp hm2 with rfl | hm3
      · simp only [bodyJob] at hj2
        injection hj2 with hh
        omega
      · have := hB.taskJobLt tk2 hm3 j2 hj2
        omega
  · intro e he j2 hj2
    rw [htrace] at he
    rw [hnj]
    rcases List.mem_append.mp he with he2 | he2
    · have := hne2 e he2 j2 hj2
      omega
    · have := hB.traceJobLt e he2 j2 hj2
      omega
  · intro jr hjr
    rw [hjobs] at hjr
    rw [hnj]
    rcases List.mem_append.mp hjr with hjr2 | hjr2
    · have := hB.jobIdLt jr hjr2
      omega
    · rcases List.mem_cons.mp hjr2 with rfl | hjr3
      · dsimp only
        omega
      · cases hjr3
  · intro jr hjr tk2 htk2 hf
    rw [hjobs] at hjr
    rw [htasks] at htk2
    rcases List.mem_append.mp hjr with hjr2 | hjr2
    · have hlt := hB.jobIdLt jr hjr2
      rcases mem_qInsert.mp htk2 with rfl | hm2
      · rw [finFireB_true_iff] at hf
        injection hf with hh
        omega
      · rcases mem_qInsert.mp hm2 with rfl | hm3
        · simp [finFireB] at hf
        · exact hB.finDue jr hjr2 tk2 hm3 hf
    · rcases List.mem_cons.mp hjr2 with rfl | hjr3
      · rcases mem_qInsert.mp htk2 with rfl | hm2
        · rfl
        · rcases mem_qInsert.mp hm2 with rfl | hm3
          · simp [finFireB] at hf
          · exfalso
            have := List.countP_eq_zero.mp hzero tk2 hm3
            exact this hf
      · cases hjr3
  · intro jr hjr
    rw [hjobs] at hjr
    rcases List.mem_append.mp hjr with hjr2 | hjr2
    · have hlt := hB.jobIdLt jr hjr2
      have hne : (c.nextJob == jr.id) = false := by
        simp only [beq_eq_false_iff_ne, ne_eq]
        omega
      have hcnt3 : c2.tasks.countP (fun x => finFireB jr.id x.body) =
          c.tasks.countP (fun x => finFireB jr.id x.body) := by
        rw [htasks, countP_qInsert_of_neg _ _ _ (by simp [finFireB, hne]),
          countP_qInsert_of_neg _ _ _ (by simp [finFireB])]
      have hfB2 : c2.trace.filter (isBeganJ jr.id) = c.trace.filter (isBeganJ jr.id) := by
        rw [htrace, List.filter_append, hnewB jr.id, List.nil_append]
      have hfP2 : c2.trace.filter (isPPJ jr.id) = c.trace.filter (isPPJ jr.id) := by
        rw [htrace, List.filter_append, hnewP jr.id, List.nil_append]
      rw [hcnt3, hfB2, hfP2]
      exact hB.finOnce jr hjr2
    · rcases List.mem_cons.mp hjr2 with rfl | hjr3
      · left
        dsimp only
        refine ⟨?_, ?_, ?_⟩
        · rw [htasks,
            countP_qInsert_of_pos _ _ _ (by simp [finFireB]),
            countP_qInsert_of_neg _ _ _ (by simp [finFireB]), hzero]
        · rw [htrace, List.filter_append, hnewB _, List.nil_append]
          exact hfB
        · rw [htrace, List.filter_append, hnewP _, List.nil_append]
          exact hfP
      · cases hjr3
  · intro jr hjr hcl
    rw [hjobs] at hjr
    rcases List.mem_append.mp hjr with hjr2 | hjr2
    · have hfB2 : c2.trace.filter (isBeganJ jr.id) = c.trace.filter (isBeganJ jr.id) := by
        rw [htrace, List.filter_append, hnewB jr.id, List.nil_append]
      rw [hfB2]
      exact hB.clearBegan jr hjr2 hcl
    · rcases List.mem_cons.mp hjr2 with rfl | hjr3
      · dsimp only
        rw [htrace, List.filter_append, hnewB _, List.nil_append]
        exact hfB
      · cases hjr3
  · intro j2 t2 t2' hp hb
    rw [htrace] at hp hb
    rcases List.mem_append.mp hp with hp2 | hp2
    · have := (hne1 _ hp2 j2).2.2
      simp [isPollFetchJ] at this
    · rcases List.mem_append.mp hb with hb2 | hb2
      · have := (hne1 _ hb2 j2).1
        simp [isBeganJ] at this
      · exact hB.pollBeforeFin j2 t2 t2' hp2 hb2

/-! ### Slot wrappers for the invariant builders -/

theorem invA_same (c1 : Config) (hA : InvA c1) {c2 : Config}
    (htasks : c2.tasks = c1.tasks) (htrace : c2.trace = c1.trace)
    (hnow : c2.now = c1.now) (hins : c2.inputs = c1.inputs) : InvA c2 :=
  invA_build c1 hA [] (by simp) [] (by simp) c2 (by rw [htasks]; rfl)
    (by rw [htrace]; rfl) hnow hins

theorem invA_e1 (c1 : Config) (hA : InvA c1) {e1 : Event} {c2 : Config}
    (htasks : c2.tasks = c1.tasks) (htrace : c2.trace = e1 :: c1.trace)
    (hnow : c2.now = c1.now) (hins : c2.inputs = c1.inputs)
    (he1 : etime e1 = c1.now) : InvA c2 :=
  invA_build c1 hA [] (by simp) [e1]
    (by intro e he; rcases List.mem_singleton.mp he with rfl; exact he1)
    c2 (by rw [htasks]; rfl) (by rw [htrace]; rfl) hnow hins

theorem invA_e2 (c1 : Config) (hA : InvA c1) {e1 e2 : Event} {c2 : Config}
    (htasks : c2.tasks = c1.tasks) (htrace : c2.trace = e1 :: e2 :: c1.trace)
    (hnow : c2.now = c1.now) (hins : c2.inputs = c1.inputs)
    (he1 : etime e1 = c1.now) (he2 : etime e2 = c1.now) : InvA c2 :=
  invA_build c1 hA [] (by simp) [e1, e2]
    (by intro e he
        rcases List.mem_cons.mp he with rfl | he2b
        · exact he1
        · rcases List.mem_singleton.mp he2b with rfl
          exact he2)
    c2 (by rw [htasks]; rfl) (by rw [htrace]; rfl) hnow hins

theorem invA_t1e1 (c1 : Config) (hA : InvA c1) {d1 : Nat} {b1 : TaskBody}
    {e1 : Event} {c2 : Config}
    (htasks : c2.tasks = qInsert ⟨d1, b1⟩ c1.tasks)
    (htrace : c2.trace = e1 :: c1.trace)
    (hnow : c2.now = c1.now) (hins : c2.inputs = c1.inputs)
    (hd1 : c1.now ≤ d1) (he1 : etime e1 = c1.now) : InvA c2 :=
  invA_build c1 hA [⟨d1, b1⟩]
    (by intro x hx; rcases List.mem_singleton.mp hx with rfl; exact hd1)
    [e1] (by intro e he; rcases List.mem_singleton.mp he with rfl; exact he1)
    c2 (by rw [htasks]; rfl) (by rw [htrace]; rfl) hnow hins

theorem invA_t1e2 (c1 : Config) (hA : InvA c1) {d1 : Nat} {b1 : TaskBody}
    {e1 e2 : Event} {c2 : Config}
    (htasks : c2.tasks = qInsert ⟨d1, b1⟩ c1.tasks)
    (htrace : c2.trace = e1 :: e2 :: c1.trace)
    (hnow : c2.now = c1.now) (hins : c2.inputs = c1.inputs)
    (hd1 : c1.now ≤ d1) (he1 : etime e1 = c1.now) (he2 : etime e2 = c1.now) :
    InvA c2 :=
  invA_build c1 hA [⟨d1, b1⟩]
    (by intro x hx; rcases List.mem_singleton.mp hx with rfl; exact hd1)
    [e1, e2]
    (by intro e he
        rcases List.mem_cons.mp he with rfl | he2b
        · exact he1
        · rcases List.mem_singleton.mp he2b with rfl
          exact he2)
    c2 (by rw [htasks]; rfl) (by rw [htrace]; rfl) hnow hins

theorem invA_t2e1 (c1 : Config) (hA : InvA c1) {d1 d2 : Nat} {b1 b2 : TaskBody}
    {e1 : Event} {c2 : Config}
    (htasks : c2.tasks = qInsert ⟨d1, b1⟩ (qInsert ⟨d2, b2⟩ c1.tasks))
    (htrace : c2.trace = e1 :: c1.trace)
    (hnow : c2.now = c1.now) (hins : c2.inputs = c1.inputs)
    (hd1 : c1.now ≤ d1) (hd2 : c1.now ≤ d2) (he1 : etime e1 = c1.now) : InvA c2 :=
  invA_build c1 hA [⟨d1, b1⟩, ⟨d2, b2⟩]
    (by intro x hx
        rcases List.mem_cons.mp hx with rfl | hx2
        · exact hd1
        · rcases List.mem_singleton.mp hx2 with rfl
          exact hd2)
    [e1] (by intro e he; rcases List.mem_singleton.mp he with rfl; exact he1)
    c2 (by rw [htasks]; rfl) (by rw [htrace]; rfl) hnow hins

theorem invA_t2e4 (c1 : Config) (hA : InvA c1) {d1 d2 : Nat} {b1 b2 : TaskBody}
    {e1 e2 e3 e4 : Event} {c2 : Config}
    (htasks : c2.tasks = qInsert ⟨d1, b1⟩ (qInsert ⟨d2, b2⟩ c1.tasks))
    (htrace : c2.trace = e1 :: e2 :: e3 :: e4 :: c1.trace)
    (hnow : c2.now = c1.now) (hins : c2.inputs = c1.inputs)
    (hd1 : c1.now ≤ d1) (hd2 : c1.now ≤ d2)
    (he1 : etime e1 = c1.now) (he2 : etime e2 = c1.now)
    (he3 : etime e3 = c1.now) (he4 : etime e4 = c1.now) : InvA c2 :=
  invA_build c1 hA [⟨d1, b1⟩, ⟨d2, b2⟩]
    (by intro x hx
        rcases List.mem_cons.mp hx with rfl | hx2
        · exact hd1
        · rcases List.mem_singleton.mp hx2 with rfl
          exact hd2)
    [e1, e2, e3, e4]
    (by intro e he
        rcases List.mem_cons.mp he with rfl | he2b
        · exact he1
        rcases List.mem_cons.mp he2b with rfl | he3b
        · exact he2
        rcases List.mem_cons.mp he3b with rfl | he4b
        · exact he3
        rcases List.mem_singleton.mp he4b with rfl
        exact he4)
    c2 (by rw [htasks]; rfl) (by rw [htrace]; rfl) hnow hins

theorem invB_e0 (c : Config) (hB : InvB c) (base : List Task)
    (hsub : ∀ x ∈ base, x ∈ c.tasks)
    (hcnt : ∀ j, base.countP (fun x => finFireB j x.body) =
            c.tasks.countP (fun x => finFireB j x.body))
    {c2 : Config}
    (htasks : c2.tasks = base) (htrace : c2.trace = c.trace)
    (hjobs : c2.jobs = c.jobs) (hnj : c2.nextJob = c.nextJob) : InvB c2 :=
  invB_build c hB base hsub hcnt [] (by simp) (by simp) [] (by simp) (by simp)
    c2 (by rw [htasks]; rfl) (by rw [htrace]; rfl) hjobs hnj

theorem invB_e1 (c : Config) (hB : InvB c) (base : List Task)
    (hsub : ∀ x ∈ base, x ∈ c.tasks)
    (hcnt : ∀ j, base.countP (fun x => finFireB j x.body) =
            c.tasks.countP (fun x => finFireB j x.body))
    {e1 : Event} {c2 : Config}
    (htasks : c2.tasks = base) (htrace : c2.trace = e1 :: c.trace)
    (hjobs : c2.jobs = c.jobs) (hnj : c2.nextJob = c.nextJob)
    (he1 : ∀ j, isBeganJ j e1 = false ∧ isPPJ j e1 = false ∧
      (isPollFetchJ j e1 = false ∨ c.trace.filter (isBeganJ j) = []))
    (he1j : ∀ j, evJob e1 = some j → j < c.nextJob) : InvB c2 :=
  invB_build c hB base hsub hcnt [] (by simp) (by simp) [e1]
    (by intro e he j; rcases List.mem_singleton.mp he with rfl; exact he1 j)
    (by intro e he j hj; rcases List.mem_singleton.mp he with rfl; exact he1j j hj)
    c2 (by rw [htasks]; rfl) (by rw [htrace]; rfl) hjobs hnj

theorem invB_e2 (c : Config) (hB : InvB c) (base : List Task)
    (hsub : ∀ x ∈ base, x ∈ c.tasks)
    (hcnt : ∀ j, base.countP (fun x => finFireB j x.body) =
            c.tasks.countP (fun x => finFireB j x.body))
    {e1 e2 : Event} {c2 : Config}
    (htasks : c2.tasks = base) (htrace : c2.trace = e1 :: e2 :: c.trace)
    (hjobs : c2.jobs = c.jobs) (hnj : c2.nextJob = c.nextJob)
    (he1 : ∀ j, isBeganJ j e1 = false ∧ isPPJ j e1 = false ∧
      (isPollFetchJ j e1 = false ∨ c.trace.filter (isBeganJ j) = []))
    (he1j : ∀ j, evJob e1 = some j → j < c.nextJob)
    (he2 : ∀ j, isBeganJ j e2 = false ∧ isPPJ j e2 = false ∧
      (isPollFetchJ j e2 = false ∨ c.trace.filter (isBeganJ j) = []))
    (he2j : ∀ j, evJob e2 = some j → j < c.nextJob) : InvB c2 :=
  invB_build c hB base hsub hcnt [] (by simp) (by simp) [e1, e2]
    (by intro e he j
        rcases List.mem_cons.mp he with rfl | he2b
        · exact he1 j
        · rcases List.mem_singleton.mp he2b with rfl
          exact he2 j)
    (by intro e he j hj
        rcases List.mem_cons.mp he with rfl | he2b
        · exact he1j j hj
        · rcases List.mem_singleton.mp he2b with rfl
          exact he2j j hj)
    c2 (by rw [htasks]; rfl) (by rw [htrace]; rfl) hjobs hnj

theorem invB_t1e1 (c : Config) (hB : InvB c) (base : List Task)
    (hsub : ∀ x ∈ base, x ∈ c.tasks)
    (hcnt : ∀ j, base.countP (fun x => finFireB j x.body) =
            c.tasks.countP (fun x => finFireB j x.body))
    {d1 : Nat} {b1 : TaskBody} {e1 : Event} {c2 : Config}
    (htasks : c2.tasks = qInsert ⟨d1, b1⟩ base)
    (htrace : c2.trace = e1 :: c.trace)
    (hjobs : c2.jobs = c.jobs) (hnj : c2.nextJob = c.nextJob)
    (hb1 : ∀ j, finFireB j b1 = false)
    (hb1j : ∀ j, bodyJob b1 = some j → j < c.nextJob)
    (he1 : ∀ j, isBeganJ j e1 = false ∧ isPPJ j e1 = false ∧
      (isPollFetchJ j e1 = false ∨ c.trace.filter (isBeganJ j) = []))
    (he1j : ∀ j, evJob e1 = some j → j < c.nextJob) : InvB c2 :=
  invB_build c hB base hsub hcnt [⟨d1, b1⟩]
    (by intro x hx j; rcases List.mem_singleton.mp hx with rfl; exact hb1 j)
    (by intro x hx j hj; rcases List.mem_singleton.mp hx with rfl; exact hb1j j hj)
    [e1]
    (by intro e he j; rcases List.mem_singleton.mp he with rfl; exact he1 j)
    (by intro e he j hj; rcases List.mem_singleton.mp he with rfl; exact he1j j hj)
    c2 (by rw [htasks]; rfl) (by rw [htrace]; rfl) hjobs hnj

theorem invB_t1e2 (c : Config) (hB : InvB c) (base : List Task)
    (hsub : ∀ x ∈ base, x ∈ c.tasks)
    (hcnt : ∀ j, base.countP (fun x => finFireB j x.body) =
            c.tasks.countP (fun x => finFireB j x.body))
    {d1 : Nat} {b1 : TaskBody} {e1 e2 : Event} {c2 : Config}
    (htasks : c2.tasks = qInsert ⟨d1, b1⟩ base)
    (htrace : c2.trace = e1 :: e2 :: c.trace)
    (hjobs : c2.jobs = c.jobs) (hnj : c2.nextJob = c.nextJob)
    (hb1 : ∀ j, finFireB j b1 = false)
    (hb1j : ∀ j, bodyJob b1 = some j → j < c.nextJob)
    (he1 : ∀ j, isBeganJ j e1 = false ∧ isPPJ j e1 = false ∧
      (isPollFetchJ j e1 = false ∨ c.trace.filter (isBeganJ j) = []))
    (he1j : ∀ j, evJob e1 = some j → j < c.nextJob)
    (he2 : ∀ j, isBeganJ j e2 = false ∧ isPPJ j e2 = false ∧
      (isPollFetchJ j e2 = false ∨ c.trace.filter (isBeganJ j) = []))
    (he2j : ∀ j, evJob e2 = some j → j < c.nextJob) : InvB c2 :=
  invB_build c hB base hsub hcnt [⟨d1, b1⟩]
    (by intro x hx j; rcases List.mem_singleton.mp hx with rfl; exact hb1 j)
    (by intro x hx j hj; rcases List.mem_singleton.mp hx with rfl; exact hb1j j hj)
    [e1, e2]
    (by intro e he j
        rcases List.mem_cons.mp he with rfl | he2b
        · exact he1 j
        · rcases List.mem_singleton.mp he2b with rfl
          exact he2 j)
    (by intro e he j hj
        rcases List.mem_cons.mp he with rfl | he2b
        · exact he1j j hj
        · rcases List.mem_singleton.mp he2b with rfl
          exact he2j j hj)
    c2 (by rw [htasks]; rfl) (by rw [htrace]; rfl) hjobs hnj

theorem invB_t2e1 (c : Config) (hB : InvB c) (base : List Task)
    (hsub : ∀ x ∈ base, x ∈ c.tasks)
    (hcnt : ∀ j, base.countP (fun x => finFireB j x.body) =
            c.tasks.countP (fun x => finFireB j x.body))
    {d1 d2 : Nat} {b1 b2 : TaskBody} {e1 : Event} {c2 : Config}
    (htasks : c2.tasks = qInsert ⟨d1, b1⟩ (qInsert ⟨d2, b2⟩ base))
    (htrace : c2.trace = e1 :: c.trace)
    (hjobs : c2.jobs = c.jobs) (hnj : c2.nextJob = c.nextJob)
    (hb1 : ∀ j, finFireB j b1 = false)
    (hb1j : ∀ j, bodyJob b1 = some j → j < c.nextJob)
    (hb2 : ∀ j, finFireB j b2 = false)
    (hb2j : ∀ j, bodyJob b2 = some j → j < c.nextJob)
    (he1 : ∀ j, isBeganJ j e1 = false ∧ isPPJ j e1 = false ∧
      (isPollFetchJ j e1 = false ∨ c.trace.filter (isBeganJ j) = []))
    (he1j : ∀ j, evJob e1 = some j → j < c.nextJob) : InvB c2 :=
  invB_build c hB base hsub hcnt [⟨d1, b1⟩, ⟨d2, b2⟩]
    (by intro x hx j
        rcases List.mem_cons.mp hx with rfl | hx2
        · exact hb1 j
        · rcases List.mem_singleton.mp hx2 with rfl
          exact hb2 j)
    (by intro x hx j hj
        rcases List.mem_cons.mp hx with rfl | hx2
        · exact hb1j j hj
        · rcases List.mem_singleton.mp hx2 with rfl
          exact hb2j j hj)
    [e1]
    (by intro e he j; rcases List.mem_singleton.mp he with rfl; exact he1 j)
    (by intro e he j hj; rcases List.mem_singleton.mp he with rfl; exact he1j j hj)
    c2 (by rw [htasks]; rfl) (by rw [htrace]; rfl) hjobs hnj

/-- Both run invariants are preserved by one scheduler step. -/
theorem inv_step (B : Backend) (c : Config) (hA : InvA c) (hB : InvB c) :
    InvA (step B c) ∧ InvB (step B c) := by
  cases hn : nextOf c with
  | idle => rw [step_eq_idle hn]; exact ⟨hA, hB⟩
  | task tk c1 =>
    rw [step_eq_task hn]
    obtain ⟨ts, hts, rfl⟩ := nextOf_task_inv hn
    have hA1 : InvA { c with tasks := ts, now := tk.due } :=
      invA_pop_task c hA hts (nextOf_task_headIn hn)
    have htkmem : tk ∈ c.tasks := by rw [hts]; exact List.mem_cons_self tk ts
    have hsub : ∀ x ∈ ts, x ∈ c.tasks := fun x hx => by
      rw [hts]; exact List.mem_cons_of_mem tk hx
    cases hb : tk.body with
    | pollTick j =>
      have hcnt : ∀ j2, ts.countP (fun x => finFireB j2 x.body) =
          c.tasks.countP (fun x => finFireB j2 x.body) := by
        intro j2
        rw [hts, List.countP_cons,
          show finFireB j2 tk.body = false from by rw [hb]; rfl]
        simp
      have hjlt : j < c.nextJob :=
        hB.taskJobLt tk htkmem j (by rw [hb]; rfl)
      simp only [runTask]
      split
      · exact ⟨invA_same _ hA1 rfl rfl rfl rfl,
          invB_e0 c hB ts hsub hcnt rfl rfl rfl rfl⟩
      · next jr hjr =>
        split
        · exact ⟨invA_same _ hA1 rfl rfl rfl rfl,
            invB_e0 c hB ts hsub hcnt rfl rfl rfl rfl⟩
        · next hcl =>
          split
          · have hBc1 : InvB { c with tasks := ts, now := tk.due } :=
              invB_e0 c hB ts hsub hcnt rfl rfl rfl rfl
            exact ⟨⟨hA1.sortedT, hA1.dueGe, hA1.sortedI, hA1.inGe, hA1.traceLe⟩,
              invB_markCleared { c with tasks := ts, now := tk.due } hBc1 j⟩
          · have hjr2 : List.find? (fun jr2 => decide (jr2.id = j)) c.jobs = some jr := hjr
            have hjrmem : jr ∈ c.jobs := List.mem_of_find?_eq_some hjr2
            have hpred := List.find?_some hjr2
            have hjrid : jr.id = j := of_decide_eq_true hpred
            have hcl2 : jr.intervalCleared = false := by simpa using hcl
            refine ⟨invA_t2e1 _ hA1 rfl rfl rfl rfl (Nat.le_add_right _ _)
              (Nat.le_add_right _ _) rfl, ?_⟩
            refine invB_t2e1 c hB ts hsub hcnt rfl rfl rfl rfl
              (fun j2 => rfl)
              (fun j2 hj => by injection hj with hh; rw [← hh]; exact hjlt)
              (fun j2 => rfl)
              (fun j2 hj => by injection hj with hh; rw [← hh]; exact hjlt)
              ?_ (fun j2 hj => by injection hj with hh; rw [← hh]; exact hjlt)
            intro j2
            refine ⟨rfl, rfl, ?_⟩
            by_cases hjj : j = j2
            · right
              rw [← hjj, ← hjrid]
              exact hB.clearBegan jr hjrmem hcl2
            · left
              simp [isPollFetchJ, hjj]
    | pollResume j r =>
      have hcnt : ∀ j2, ts.countP (fun x => finFireB j2 x.body) =
          c.tasks.countP (fun x => finFireB j2 x.body) := by
        intro j2
        rw [hts, List.countP_cons,
          show finFireB j2 tk.body = false from by rw [hb]; rfl]
        simp
      have hjlt : j < c.nextJob :=
        hB.taskJobLt tk htkmem j (by rw [hb]; rfl)
      cases r with
      | none =>
        exact ⟨invA_e1 _ hA1 rfl rfl rfl rfl rfl,
          invB_e1 c hB ts hsub hcnt rfl rfl rfl rfl
            (fun j2 => ⟨rfl, rfl, Or.inl rfl⟩)
            (fun j2 hj => by injection hj with hh; rw [← hh]; exact hjlt)⟩
      | some sv =>
        obtain ⟨s, tsv⟩ := sv
        exact ⟨invA_e1 _ hA1 rfl rfl rfl rfl rfl,
          invB_e1 c hB ts hsub hcnt rfl rfl rfl rfl
            (fun j2 => ⟨rfl, rfl, Or.inl rfl⟩)
            (fun j2 hj => by injection hj with hh; rw [← hh]; exact hjlt)⟩
    | finalizeFire j =>
      exact ⟨invA_t1e2 _ hA1 rfl rfl rfl rfl (Nat.le_add_right _ _) rfl rfl,
        invB_finalize c hA hB hts hb _ rfl rfl rfl rfl⟩
    | submitResume j r =>
      have hcnt : ∀ j2, ts.countP (fun x => finFireB j2 x.body) =
          c.tasks.countP (fun x => finFireB j2 x.body) := by
        intro j2
        rw [hts, List.countP_cons,
          show finFireB j2 tk.body = false from by rw [hb]; rfl]
        simp
      have hjlt : j < c.nextJob :=
        hB.taskJobLt tk htkmem j (by rw [hb]; rfl)
      cases r with
      | none =>
        exact ⟨invA_t1e2 _ hA1 rfl rfl rfl rfl (Nat.le_add_right _ _) rfl rfl,
          invB_t1e2 c hB ts hsub hcnt rfl rfl rfl rfl
            (fun j2 => rfl)
            (fun j2 hj => by injection hj with hh; rw [← hh]; exact hjlt)
            (fun j2 => ⟨rfl, rfl, Or.inl rfl⟩)
            (fun j2 hj => by injection hj with hh; rw [← hh]; exact hjlt)
            (fun j2 => ⟨rfl, rfl, Or.inl rfl⟩)
            (fun j2 hj => Option.noConfusion hj)⟩
      | some txt =>
        exact ⟨invA_t1e2 _ hA1 rfl rfl rfl rfl (Nat.le_add_right _ _) rfl rfl,
          invB_t1e2 c hB ts hsub hcnt rfl rfl rfl rfl
            (fun j2 => rfl)
            (fun j2 hj => by injection hj with hh; rw [← hh]; exact hjlt)
            (fun j2 => ⟨rfl, rfl, Or.inl rfl⟩)
            (fun j2 hj => by injection hj with hh; rw [← hh]; exact hjlt)
            (fun j2 => ⟨rfl, rfl, Or.inl rfl⟩)
            (fun j2 hj => Option.noConfusion hj)⟩
    | finalResume j r =>
      have hcnt : ∀ j2, ts.countP (fun x => finFireB j2 x.body) =
          c.tasks.countP (fun x => finFireB j2 x.body) := by
        intro j2
        rw [hts, List.countP_cons,
          show finFireB j2 tk.body = false from by rw [hb]; rfl]
        simp
      have hjlt : j < c.nextJob :=
        hB.taskJobLt tk htkmem j (by rw [hb]; rfl)
      cases r with
      | none =>
        exact ⟨invA_e1 _ hA1 rfl rfl rfl rfl rfl,
          invB_e1 c hB ts hsub hcnt rfl rfl rfl rfl
            (fun j2 => ⟨rfl, rfl, Or.inl rfl⟩)
            (fun j2 hj => Option.noConfusion hj)⟩
      | some sv =>
        obtain ⟨s, tsv⟩ := sv
        cases s with
        | completed =>
          exact ⟨invA_e1 _ hA1 rfl rfl rfl rfl rfl,
            invB_e1 c hB ts hsub hcnt rfl rfl rfl rfl
              (fun j2 => ⟨rfl, rfl, Or.inl rfl⟩)
              (fun j2 hj => by injection hj with hh; rw [← hh]; exact hjlt)⟩
        | failed =>
          exact ⟨invA_e1 _ hA1 rfl rfl rfl rfl rfl,
            invB_e1 c hB ts hsub hcnt rfl rfl rfl rfl
              (fun j2 => ⟨rfl, rfl, Or.inl rfl⟩)
              (fun j2 hj => by injection hj with hh; rw [← hh]; exact hjlt)⟩
        | processing =>
          exact ⟨invA_same _ hA1 rfl rfl rfl rfl,
            invB_e0 c hB ts hsub hcnt rfl rfl rfl rfl⟩
        | unknown =>
          exact ⟨invA_same _ hA1 rfl rfl rfl rfl,
            invB_e0 c hB ts hsub hcnt rfl rfl rfl rfl⟩
    | dlStatusResume r =>
      have hcnt : ∀ j2, ts.countP (fun x => finFireB j2 x.body) =
          c.tasks.countP (fun x => finFireB j2 x.body) := by
        intro j2
        rw [hts, List.countP_cons,
          show finFireB j2 tk.body = false from by rw [hb]; rfl]
        simp
      cases r with
      | none =>
        exact ⟨invA_e1 _ hA1 rfl rfl rfl rfl rfl,
          invB_e1 c hB ts hsub hcnt rfl rfl rfl rfl
            (fun j2 => ⟨rfl, rfl, Or.inl rfl⟩)
            (fun j2 hj => Option.noConfusion hj)⟩
      | some sv =>
        obtain ⟨s, tsv⟩ := sv
        simp only [runTask]
        split
        · exact ⟨invA_e1 _ hA1 rfl rfl rfl rfl rfl,
            invB_e1 c hB ts hsub hcnt rfl rfl rfl rfl
              (fun j2 => ⟨rfl, rfl, Or.inl rfl⟩)
              (fun j2 hj => Option.noConfusion hj)⟩
        · split
          · exact ⟨invA_e1 _ hA1 rfl rfl rfl rfl rfl,
              invB_e1 c hB ts hsub hcnt rfl rfl rfl rfl
                (fun j2 => ⟨rfl, rfl, Or.inl rfl⟩)
                (fun j2 hj => Option.noConfusion hj)⟩
          · exact ⟨invA_t1e1 _ hA1 rfl rfl rfl rfl (Nat.le_add_right _ _) rfl,
              invB_t1e1 c hB ts hsub hcnt rfl rfl rfl rfl
                (fun j2 => rfl)
                (fun j2 hj => Option.noConfusion hj)
                (fun j2 => ⟨rfl, rfl, Or.inl rfl⟩)
                (fun j2 hj => Option.noConfusion hj)⟩
    | dlOutputResume r =>
      have hcnt : ∀ j2, ts.countP (fun x => finFireB j2 x.body) =
          c.tasks.countP (fun x => finFireB j2 x.body) := by
        intro j2
        rw [hts, List.countP_cons,
          show finFireB j2 tk.body = false from by rw [hb]; rfl]
        simp
      cases r with
      | none =>
        exact ⟨invA_e1 _ hA1 rfl rfl rfl rfl rfl,
          invB_e1 c hB ts hsub hcnt rfl rfl rfl rfl
            (fun j2 => ⟨rfl, rfl, Or.inl rfl⟩)
            (fun j2 hj => Option.noConfusion hj)⟩
      | some bv =>
        cases bv with
        | false =>
          exact ⟨invA_e1 _ hA1 rfl rfl rfl rfl rfl,
            invB_e1 c hB ts hsub hcnt rfl rfl rfl rfl
              (fun j2 => ⟨rfl, rfl, Or.inl rfl⟩)
              (fun j2 hj => Option.noConfusion hj)⟩
        | true =>
          exact ⟨invA_t1e2 _ hA1 rfl rfl rfl rfl (Nat.le_add_right _ _) rfl rfl,
            invB_t1e2 c hB ts hsub hcnt rfl rfl rfl rfl
              (fun j2 => rfl)
              (fun j2 hj => Option.noConfusion hj)
              (fun j2 => ⟨rfl, rfl, Or.inl rfl⟩)
              (fun j2 hj => Option.noConfusion hj)
              (fun j2 => ⟨rfl, rfl, Or.inl rfl⟩)
              (fun j2 hj => Option.noConfusion hj)⟩
    | dlShowDone =>
      have hcnt : ∀ j2, ts.countP (fun x => finFireB j2 x.body) =
          c.tasks.countP (fun x => finFireB j2 x.body) := by
        intro j2
        rw [hts, List.countP_cons,
          show finFireB j2 tk.body = false from by rw [hb]; rfl]
        simp
      exact ⟨invA_t1e1 _ hA1 rfl rfl rfl rfl (Nat.le_add_right _ _) rfl,
        invB_t1e1 c hB ts hsub hcnt rfl rfl rfl rfl
          (fun j2 => rfl)
          (fun j2 hj => Option.noConfusion hj)
          (fun j2 => ⟨rfl, rfl, Or.inl rfl⟩)
          (fun j2 hj => Option.noConfusion hj)⟩
    | dlClearText =>
      have hcnt : ∀ j2, ts.countP (fun x => finFireB j2 x.body) =
          c.tasks.countP (fun x => finFireB j2 x.body) := by
        intro j2
        rw [hts, List.countP_cons,
          show finFireB j2 tk.body = false from by rw [hb]; rfl]
        simp
      exact ⟨invA_e1 _ hA1 rfl rfl rfl rfl rfl,
        invB_e1 c hB ts hsub hcnt rfl rfl rfl rfl
          (fun j2 => ⟨rfl, rfl, Or.inl rfl⟩)
          (fun j2 hj => Option.noConfusion hj)⟩
  | act a c1 =>
    rw [step_eq_act hn]
    obtain ⟨t, rest, hin, rfl⟩ := nextOf_act_inv hn
    have hA1 : InvA { c with inputs := rest, now := t } :=
      invA_pop_act c hA hin (nextOf_act_headTask hn hin)
    have hB1 : InvB { c with inputs := rest, now := t } :=
      ⟨hB.taskJobLt, hB.traceJobLt, hB.jobIdLt, hB.finDue, hB.finOnce,
        hB.clearBegan, hB.pollBeforeFin⟩
    have hsub : ∀ x ∈ c.tasks, x ∈ c.tasks := fun x hx => hx
    have hcnt : ∀ j2, c.tasks.countP (fun x => finFireB j2 x.body) =
        c.tasks.countP (fun x => finFireB j2 x.body) := fun j2 => rfl
    cases a with
    | sendMessage txt =>
      simp only [applyAction, sendMessage]
      split
      · exact ⟨hA1, hB1⟩
      · refine ⟨invA_t2e4 _ hA1 rfl rfl rfl rfl (Nat.le_add_right _ _)
          (Nat.le_add_right _ _) rfl rfl rfl rfl, ?_⟩
        refine invB_submit c hB t _ rfl
          [Event.chatAdd (.typing c.nextJob) t, Event.chatAdd (.placeholder c.nextJob) t,
           Event.setStatus .preparing (.submitStart c.nextJob) t,
           Event.chatAdd (.user txt) t] ?_ ?_ rfl rfl rfl
        · intro e he j2
          rcases List.mem_cons.mp he with rfl | he2
          · exact ⟨rfl, rfl, rfl⟩
          rcases List.mem_cons.mp he2 with rfl | he3
          · exact ⟨rfl, rfl, rfl⟩
          rcases List.mem_cons.mp he3 with rfl | he4
          · exact ⟨rfl, rfl, rfl⟩
          rcases List.mem_singleton.mp he4 with rfl
          exact ⟨rfl, rfl, rfl⟩
        · intro e he j2 hj
          rcases List.mem_cons.mp he with rfl | he2
          · exact Option.noConfusion hj
          rcases List.mem_cons.mp he2 with rfl | he3
          · exact Option.noConfusion hj
          rcases List.mem_cons.mp he3 with rfl | he4
          · injection hj with hh
            exact Nat.le_of_eq hh.symm
          rcases List.mem_singleton.mp he4 with rfl
          exact Option.noConfusion hj
    | selectFile name size =>
      simp only [applyAction, handleFileSelection]
      split
      · exact ⟨invA_e1 _ hA1 rfl rfl rfl rfl rfl,
          invB_e1 c hB c.tasks hsub hcnt rfl rfl rfl rfl
            (fun j2 => ⟨rfl, rfl, Or.inl rfl⟩)
            (fun j2 hj => Option.noConfusion hj)⟩
      · exact ⟨invA_e1 _ hA1 rfl rfl rfl rfl rfl,
          invB_e1 c hB c.tasks hsub hcnt rfl rfl rfl rfl
            (fun j2 => ⟨rfl, rfl, Or.inl rfl⟩)
            (fun j2 hj => Option.noConfusion hj)⟩
      · refine ⟨invA_t2e4 _ hA1 rfl rfl rfl rfl (Nat.le_add_right _ _)
          (Nat.le_add_right _ _) rfl rfl rfl rfl, ?_⟩
        refine invB_submit c hB t _ rfl
          [Event.chatAdd (.typing c.nextJob) t, Event.chatAdd (.placeholder c.nextJob) t,
           Event.setStatus .preparing (.submitStart c.nextJob) t,
           Event.chatAdd (.user name) t] ?_ ?_ rfl rfl rfl
        · intro e he j2
          rcases List.mem_cons.mp he with rfl | he2
          · exact ⟨rfl, rfl, rfl⟩
          rcases List.mem_cons.mp he2 with rfl | he3
          · exact ⟨rfl, rfl, rfl⟩
          rcases List.mem_cons.mp he3 with rfl | he4
          · exact ⟨rfl, rfl, rfl⟩
          rcases List.mem_singleton.mp he4 with rfl
          exact ⟨rfl, rfl, rfl⟩
        · intro e he j2 hj
          rcases List.mem_cons.mp he with rfl | he2
          · exact Option.noConfusion hj
          rcases List.mem_cons.mp he2 with rfl | he3
          · exact Option.noConfusion hj
          rcases List.mem_cons.mp he3 with rfl | he4
          · injection hj with hh
            exact Nat.le_of_eq hh.symm
          rcases List.mem_singleton.mp he4 with rfl
          exact Option.noConfusion hj
    | clickNewChat =>
      exact ⟨invA_e2 _ hA1 rfl rfl rfl rfl rfl rfl,
        invB_e2 c hB c.tasks hsub hcnt rfl rfl rfl rfl
          (fun j2 => ⟨rfl, rfl, Or.inl rfl⟩)
          (fun j2 hj => Option.noConfusion hj)
          (fun j2 => ⟨rfl, rfl, Or.inl rfl⟩)
          (fun j2 hj => Option.noConfusion hj)⟩
    | clickDownload =>
      exact ⟨invA_t1e1 _ hA1 rfl rfl rfl rfl (Nat.le_add_right _ _) rfl,
        invB_t1e1 c hB c.tasks hsub hcnt rfl rfl rfl rfl
          (fun j2 => rfl)
          (fun j2 hj => Option.noConfusion hj)
          (fun j2 => ⟨rfl, rfl, Or.inl rfl⟩)
          (fun j2 hj => Option.noConfusion hj)⟩

/-! ### Claim theorems -/

/-- Claim C3 (amended): the new-chat reset clears the chat back to the
welcome state, hides the download button and clears the status text, but it
cancels nothing: the pending timers and suspended fetches of the superseded
job (the task queue), the job records and the request counters all survive
the reset unchanged, and no job identifier or staleness check exists. -/
theorem claim_C3_amended (c : Config) :
    (newChatClick c).tasks = c.tasks ∧
    (newChatClick c).inputs = c.inputs ∧
    (newChatClick c).jobs = c.jobs ∧
    (newChatClick c).scCount = c.scCount ∧
    (newChatClick c).ppCount = c.ppCount ∧
    (newChatClick c).goCount = c.goCount ∧
    (newChatClick c).ui.chat = [.welcome] ∧
    (newChatClick c).ui.downloadVisible = false ∧
    (newChatClick c).ui.statusText = .empty :=
  ⟨rfl, rfl, rfl, rfl, rfl, rfl, rfl, rfl, rfl⟩

/-- Claim C3 as stated is false on the code: submit at t = 0, reset at
t = 3000; advancing time still yields a poll-driven status write at
t = 4100 and an AI chat message at t = 5100 from the superseded job —
the reset cancelled neither the poll interval nor the finalize timer, and
no staleness check drops the late results. -/
theorem claim_C3_cex :
    Event.setStatus (.working 4100) (.poll 0) 4100 ∈ resetRun.trace ∧
    Event.chatAdd (.ai "ok".toList) 5100 ∈ resetRun.trace ∧
    ChatMsg.ai "ok".toList ∈ resetRun.ui.chat := by
  decide

/-- Claim C10: submitting a blank (empty or whitespace-only) prompt is a
complete no-op: `sendMessage` returns the state unchanged — no chat
message, no flow, no timer, no request, no display change. -/
theorem claim_C10 (c : Config) (txt : List Char) (h : trimL txt = []) :
    sendMessage c txt = c := by
  simp [sendMessage, h]

theorem claim_C10_witness :
    sendMessage (initConfig []) "   ".toList = initConfig [] :=
  claim_C10 _ _ (by decide)

/-- Claim C8 (amended): the `completed` and `failed` branches write
identical status text at the poll tick and at the post-finalize
reconciliation; but the mapping is not one shared total function: for
`processing` and `unknown` the poll tick writes the working/ready text
while the reconciliation performs no status-text update at all. -/
theorem claim_C8_amended (B : Backend) (c : Config) (j ts now : Nat) :
    finalStatusText .completed ts = some (pollStatusText .completed ts now) ∧
    finalStatusText .failed ts = some (pollStatusText .failed ts now) ∧
    finalStatusText .processing ts = none ∧
    finalStatusText .unknown ts = none ∧
    pollStatusText .processing ts now = .working now ∧
    pollStatusText .unknown ts now = .ready ∧
    runTask B c (.pollResume j (some (.processing, ts))) =
      setStatusText c (pollStatusText .processing ts c.now) (.poll j) ∧
    (runTask B c (.finalResume j (some (.processing, ts)))).ui = c.ui ∧
    (runTask B c (.finalResume j (some (.unknown, ts)))).ui = c.ui :=
  ⟨rfl, rfl, rfl, rfl, rfl, rfl, rfl, rfl, rfl⟩

/-- Claim C8 as stated is false: at status `processing` the poll call site
updates the status text (to the working text) while the reconciliation
call site performs no update, so the two sites do not produce the same
status-text update for every status value. -/
theorem claim_C8_cex :
    pollStatusText .processing 0 7 = .working 7 ∧
    finalStatusText .processing 0 = none ∧
    some (pollStatusText .processing 0 7) ≠ finalStatusText .processing 0 := by
  decide

/-- Claim C9 (amended): transport errors of the poll fetch, the
`process_prompt` POST and the two download-handler fetches are caught at
their call sites and surface as a status line, chat message or dialog; the
post-finalize `check_status` fetch however sits outside any try/catch:
its failure escapes the async callback as an unhandled rejection and
produces no user-visible output at all. -/
theorem claim_C9_amended (B : Backend) (c : Config) (j : Nat) :
    runTask B c (.pollResume j none) = setStatusText c .connError (.poll j) ∧
    (runTask B c (.submitResume j none)).ui.chat = c.ui.chat ++ [.aiError] ∧
    runTask B c (.dlStatusResume none) = logEvent c (.alert .dlConnErr c.now) ∧
    runTask B c (.dlOutputResume none) = logEvent c (.alert .dlConnErr c.now) ∧
    runTask B c (.finalResume j none) = logEvent c (.uncaught c.now) ∧
    (runTask B c (.finalResume j none)).ui = c.ui :=
  ⟨rfl, rfl, rfl, rfl, rfl, rfl⟩

/-- Claim C9 as stated is false on the code: when the post-finalize
`check_status` fetch fails, the run's trace records an unhandled rejection
at t = 5200, and the only trace entry at that time is that marker — no
message or dialog is rendered for this failure. -/
theorem claim_C9_cex :
    Event.uncaught 5200 ∈ finalCheckFailRun.trace ∧
    finalCheckFailRun.trace.filter (fun e => etime e == 5200) =
      [Event.uncaught 5200] := by
  decide

/-- Claim C7 (amended): when the finalize-time POST fails with a transport
error, a local error message is rendered to the chat; but the download
gating is independent of the POST outcome: the reconciliation fetch is
still issued, and enables the download action whenever it reports
`completed`. -/
theorem claim_C7_amended (B : Backend) (c : Config) (j ts : Nat) :
    (runTask B c (.submitResume j none)).ui.chat = c.ui.chat ++ [.aiError] ∧
    Event.chatAdd .aiError c.now ∈ (runTask B c (.submitResume j none)).trace ∧
    (runTask B c (.submitResume j none)).scCount = c.scCount + 1 ∧
    (runTask B c (.submitResume j none)).ui.downloadVisible = c.ui.downloadVisible ∧
    (runTask B c (.finalResume j (some (.completed, ts)))).ui.downloadVisible = true := by
  refine ⟨rfl, ?_, rfl, rfl, rfl⟩
  simp [runTask, addChat, issueStatus, schedule]

/-- Claim C7 as stated is false on the code: in the run where the POST
fails and `check_status` reports `completed`, the local error message is
rendered AND the download button ends up shown. -/
theorem claim_C7_cex :
    ChatMsg.aiError ∈ submitFailRun.ui.chat ∧
    Event.chatAdd .aiError 5100 ∈ submitFailRun.trace ∧
    submitFailRun.ui.downloadVisible = true := by
  decide

/-- Claim C5: the download handler fetches the status first; `processing`
and `failed` abort with a dialog before the availability probe (the state
is unchanged apart from the logged dialog, so `get_output` is not
contacted); any other status issues the probe; an unavailable probe result
aborts with a dialog; only a successful probe navigates to the download,
shows the downloading text and arms the success-text timer. -/
theorem claim_C5 (B : Backend) (c : Config) (ts : Nat) (s : Status)
    (hp : s ≠ .processing) (hf : s ≠ .failed) :
    ((downloadClick B c).scCount = c.scCount + 1 ∧
     (downloadClick B c).goCount = c.goCount ∧
     Event.fetch .checkStatus .dl c.now ∈ (downloadClick B c).trace) ∧
    runTask B c (.dlStatusResume (some (.processing, ts))) =
      logEvent c (.alert .dlWaitProcessing c.now) ∧
    runTask B c (.dlStatusResume (some (.failed, ts))) =
      logEvent c (.alert .dlFailed c.now) ∧
    ((runTask B c (.dlStatusResume (some (s, ts)))).goCount = c.goCount + 1 ∧
     Event.fetch .getOutput .dl c.now ∈
       (runTask B c (.dlStatusResume (some (s, ts)))).trace) ∧
    runTask B c (.dlOutputResume (some false)) =
      logEvent c (.alert .dlWaitNoFile c.now) ∧
    ((runTask B c (.dlOutputResume (some true))).trace =
       Event.navigate c.now :: Event.setStatus .downloading .dl c.now :: c.trace ∧
     (runTask B c (.dlOutputResume (some true))).ui.statusText = .downloading ∧
     (runTask B c (.dlOutputResume (some true))).tasks =
       qInsert ⟨c.now + 1000, .dlShowDone⟩ c.tasks) ∧
    runTask B c .dlShowDone =
      schedule (setStatusText c .downloaded .dl) (c.now + 3000) .dlClearText := by
  refine ⟨⟨rfl, rfl, ?_⟩, rfl, rfl, ⟨?_, ?_⟩, rfl, ⟨rfl, rfl, rfl⟩, rfl⟩
  · simp [downloadClick, issueStatus, schedule]
  · cases s with
    | unknown => rfl
    | processing => exact absurd rfl hp
    | completed => rfl
    | failed => exact absurd rfl hf
  · cases s with
    | unknown => simp [runTask, issueOutput, schedule]
    | processing => exact absurd rfl hp
    | completed => simp [runTask, issueOutput, schedule]
    | failed => exact absurd rfl hf

theorem claim_C5_witness :
    (runTask bkCompleted (initConfig []) (.dlStatusResume (some (.completed, 0)))).goCount =
      (initConfig []).goCount + 1 :=
  (claim_C5 bkCompleted (initConfig []) 0 .completed (by decide) (by decide)).2.2.2.1.1

/-- Claim C6 (amended): the part_000 revision enforces the validation as
claimed: a name whose lower-cased form does not end in an allowed
extension is rejected with a local dialog and nothing else happens; an
over-5-MiB file is rejected with a local dialog and nothing else happens;
a 1 MiB `.pdf` passes and starts the submission flow.  The script.js
revision of the handler enforces only the size limit, so its extension
claim fails (see the counterexample). -/
theorem claim_C6_amended :
    (∀ (c : Config) (name : List Char) (size : Nat), ¬ hasAllowedExt name →
      fileDecision name size = .rejectExt ∧
      handleFileSelection c name size = logEvent c (.alert .badExt c.now)) ∧
    (∀ (c : Config) (name : List Char) (size : Nat), 5 * 1024 * 1024 < size →
      fileDecision name size ≠ .accept ∧
      (handleFileSelection c name size = logEvent c (.alert .badExt c.now) ∨
       handleFileSelection c name size = logEvent c (.alert .tooBig c.now))) ∧
    fileDecision "report.pdf".toList (1024 * 1024) = .accept ∧
    (∀ c : Config,
      (handleFileSelection c "report.pdf".toList (1024 * 1024)).jobs.length =
        c.jobs.length + 1) := by
  refine ⟨?_, ?_, by decide, ?_⟩
  · intro c name size h
    have hd := fileDecision_rejectExt size h
    exact ⟨hd, by simp [handleFileSelection, hd]⟩
  · intro c name size h
    by_cases hx : ((extOf name).map Char.toLower) ∉ allowedExtensions
    · have hd : fileDecision name size = .rejectExt := by simp [fileDecision, hx]
      exact ⟨by simp [hd], Or.inl (by simp [handleFileSelection, hd])⟩
    · have hd : fileDecision name size = .rejectSize := by
        simp only [fileDecision, if_neg hx]
        rw [if_pos h]
      exact ⟨by simp [hd], Or.inr (by simp [handleFileSelection, hd])⟩
  · intro c
    have hd : fileDecision "report.pdf".toList (1024 * 1024) = .accept := by decide
    simp only [handleFileSelection]
    rw [hd]
    simp [startProcessingFlow, addChat, setStatusText, schedule]

theorem claim_C6_amended_witness :
    fileDecision "virus.exe".toList 100 = FileDecision.rejectExt :=
  (claim_C6_amended.1 (initConfig []) ("virus.exe".toList) 100 (by decide)).1

/-- Claim C6 as stated is false for the script.js revision of
`handleFileSelection`: a 1 MiB `.exe` file is not rejected — no dialog is
raised, a job is started, and the first poll tick then contacts the
backend, contradicting the claimed no-network rejection of files with
disallowed extensions. -/
theorem claim_C6_cex :
    fileDecisionV1 exeName (1024 * 1024) = .accept ∧
    v1AcceptCfg.trace.filter isAlertEv = [] ∧
    v1AcceptCfg.jobs.length = 1 ∧
    Event.fetch .checkStatus (.poll 0) 2000 ∈ (runN bkProcessing v1AcceptCfg 1).trace := by
  decide

/-- Claim C4: under the spec's single-outstanding-job discipline (a
submission only happens when no task of an earlier job is pending — the
spec rules reentrant submissions out of scope), at every point of every
run the download action is visible exactly when the last reconciled
backend status is `completed`; in particular it is hidden at submission
start and at reset (both clear the reconciled status), and it is never
visible when the last reconciliation saw `failed` or `unknown`. -/
theorem claim_C4 (B : Backend) (ins : List (Nat × UserAction)) (n : Nat)
    (h : seqOKb B n (initConfig ins) = true) :
    (runN B (initConfig ins) n).ui.downloadVisible = true ↔
      (runN B (initConfig ins) n).ghostReconciled = some .completed :=
  (finv_runN B n (initConfig ins) (finv_init ins) h).gate

theorem claim_C4_witness :
    (runN bkCompleted (initConfig insHello) 12).ui.downloadVisible = true :=
  (claim_C4 bkCompleted insHello 12 (by decide)).mpr (by decide)

theorem inv_init (ins : List (Nat × UserAction)) (hs : SortedI ins) :
    InvA (initConfig ins) ∧ InvB (initConfig ins) := by
  constructor
  · refine ⟨?_, ?_, hs, ?_, ?_⟩
    · simp [initConfig, SortedQ]
    · intro tk hm; simp [initConfig] at hm
    · intro p hp; exact Nat.zero_le _
    · intro e he; simp [initConfig] at he
  · refine ⟨?_, ?_, ?_, ?_, ?_, ?_, ?_⟩
    · intro tk hm; simp [initConfig] at hm
    · intro e he; simp [initConfig] at he
    · intro jr hjr; simp [initConfig] at hjr
    · intro jr hjr; simp [initConfig] at hjr
    · intro jr hjr; simp [initConfig] at hjr
    · intro jr hjr; simp [initConfig] at hjr
    · intro j t t' hp; simp [initConfig] at hp

theorem inv_runN (B : Backend) (ins : List (Nat × UserAction)) (hs : SortedI ins)
    (n : Nat) :
    InvA (runN B (initConfig ins) n) ∧ InvB (runN B (initConfig ins) n) := by
  have hgen : ∀ (m : Nat) (c : Config), InvA c → InvB c →
      InvA (runN B c m) ∧ InvB (runN B c m) := by
    intro m
    induction m with
    | zero => intro c hA hB; exact ⟨hA, hB⟩
    | succ m ih =>
      intro c hA hB
      have h := inv_step B c hA hB
      exact ih (step B c) h.1 h.2
  exact hgen n (initConfig ins) (inv_init ins hs).1 (inv_init ins hs).2

/-- Claim C1: along any run from a sorted gesture script, every job (one per
valid submission) performs exactly one finalize POST to `process_prompt`,
and it happens exactly at its submission time plus 5000 ms — once the clock
has passed that instant, the trace holds exactly one such POST and exactly
one finalize-began marker for that job, both stamped submit + 5000,
regardless of how many poll ticks ran before it. -/
theorem claim_C1 (B : Backend) (ins : List (Nat × UserAction)) (n : Nat)
    (hs : SortedI ins) (jr : JobRec)
    (hj : jr ∈ (runN B (initConfig ins) n).jobs)
    (hlate : jr.startTime + 5000 < (runN B (initConfig ins) n).now) :
    (runN B (initConfig ins) n).trace.filter (isPPJ jr.id) =
      [Event.fetch .processPrompt (.finalize jr.id) (jr.startTime + 5000)] ∧
    (runN B (initConfig ins) n).trace.filter (isBeganJ jr.id) =
      [Event.finalizeBegan jr.id (jr.startTime + 5000)] := by
  obtain ⟨hA, hB⟩ := inv_runN B ins hs n
  rcases hB.finOnce jr hj with ⟨h1, h2, h3⟩ | ⟨h1, h2, h3⟩
  · exfalso
    have hpos : 0 < (runN B (initConfig ins) n).tasks.countP
        (fun tk => finFireB jr.id tk.body) := by omega
    obtain ⟨tk, htk, hp⟩ := List.countP_pos_iff.mp hpos
    have hdue := hB.finDue jr hj tk htk hp
    have hge := hA.dueGe tk htk
    omega
  · exact ⟨h3, h2⟩

theorem claim_C1_witness :
    (runN bkProcessing (initConfig insHello) 12).trace.filter (isPPJ 0) =
      [Event.fetch .processPrompt (.finalize 0) 5000] :=
  (claim_C1 bkProcessing insHello 12 (by decide)
    { id := 0, startTime := 0, processingDone := true, intervalCleared := true }
    (by decide) (by decide)).1

/-- Claim C2 (amended): the poll interval is cancelled synchronously at the
top of the finalize callback, before any suspension point, so no poll tick
issues a new status fetch once finalization has begun: in every run, every
poll status fetch of a job is stamped no later than that job's
finalize-began marker.  (What the original claim adds beyond this — that a
poll reply already in flight cannot mutate the display after finalization
begins — is false; see the counterexample.) -/
theorem claim_C2_amended (B : Backend) (ins : List (Nat × UserAction)) (n : Nat)
    (hs : SortedI ins) (j t t' : Nat)
    (hp : Event.fetch .checkStatus (.poll j) t ∈ (runN B (initConfig ins) n).trace)
    (hb : Event.finalizeBegan j t' ∈ (runN B (initConfig ins) n).trace) :
    t ≤ t' :=
  (inv_runN B ins hs n).2.pollBeforeFin j t t' hp hb

theorem claim_C2_amended_witness :
    Event.fetch .checkStatus (.poll 0) 4000 ∈ slowPollRun.trace ∧
    Event.finalizeBegan 0 5000 ∈ slowPollRun.trace ∧ 4000 ≤ 5000 :=
  ⟨by decide, by decide,
    claim_C2_amended bkSlowPoll insHello 12 (by decide) 0 4000 5000
      (by decide) (by decide)⟩

/-- Claim C2 as stated is false on the code: in the run where the second
poll fetch (issued at t = 4000) takes 2500 ms, finalization begins at
t = 5000 and the stale poll reply still writes the status line at t = 6500 —
one poll-driven status update after finalization began, not zero.  The
cancellation stops new ticks but cannot retract the fetch already in
flight, whose continuation runs unconditionally. -/
theorem claim_C2_cex :
    Event.finalizeBegan 0 5000 ∈ slowPollRun.trace ∧
    Event.setStatus (.working 6500) (.poll 0) 6500 ∈ slowPollRun.trace ∧
    (slowPollRun.trace.filter (pollStatusWriteAfter 5000)).length = 1 := by
  decide

end FourTML
